import Mathlib

/-!
Verification development for the smartnotes-ai client-side streaming and
caching layer: the SSE stream consumer in `ChatSidebar.send`, the incremental
markdown-like renderer `renderChatHtml`, the TTL caches in
`src/utils/clientCache.ts` (`ClientCache` and `localStorageCache`), and the
cache-aware fetch hook `useApiCache` in `src/hooks/useApiCache.ts`.

JavaScript strings are modelled as `List Char`; JavaScript values that can
flow through `JSON.parse` / `JSON.stringify` are modelled by the `JValue`
type below (JSON numbers are restricted to integers, which covers every
value manipulated by the code under verification).
-/

namespace SmartNotes

/-- Character-list representation of a JavaScript string. -/
abbrev Str := List Char

/-- Coercion from a Lean string literal to its character list. -/
def str (s : String) : Str := s.data

/-- Backtick character (written via its code point). -/
def btick : Char := Char.ofNat 96

/-- Whitespace test matching JavaScript's `\s` class and `String.trim`
(ASCII whitespace, NBSP, BOM and the Unicode space separators). -/
def jsWs (c : Char) : Bool :=
  let n := c.toNat
  n == 32 || n == 9 || n == 10 || n == 11 || n == 12 || n == 13 ||
  n == 160 || n == 0x1680 || (decide (0x2000 ≤ n) && decide (n ≤ 0x200A)) ||
  n == 0x2028 || n == 0x2029 || n == 0x202F || n == 0x205F || n == 0x3000 || n == 0xFEFF

/-- Left trim, as in JavaScript `String.trim` (leading part). -/
def trimL (l : Str) : Str := l.dropWhile jsWs

/-- Right trim, as in JavaScript `String.trim` (trailing part). -/
def trimR (l : Str) : Str := (l.reverse.dropWhile jsWs).reverse

/-- Model of JavaScript `String.trim`. -/
def jsTrim (l : Str) : Str := trimR (trimL l)

/-- Model of JavaScript `chunk.split('\n')`: split on the newline character
only, keeping empty fragments (`"".split('\n')` is `[""]`). -/
def splitNl : Str → List Str
  | [] => [[]]
  | c :: rest =>
    if c = '\n' then [] :: splitNl rest
    else
      match splitNl rest with
      | [] => [[c]]
      | h :: t => (c :: h) :: t

mutual
/-- Model of a JSON-representable JavaScript value. JSON numbers are
restricted to integers; every value the verified code produces is covered. -/
inductive JValue where
  | jnull : JValue
  | jbool (b : Bool) : JValue
  | jnum (n : Int) : JValue
  | jstr (s : Str) : JValue
  | jarr (a : JArr) : JValue
  | jobj (o : JObj) : JValue
  deriving DecidableEq

/-- Sequence of JSON values (array contents). -/
inductive JArr where
  | nil : JArr
  | cons (hd : JValue) (tl : JArr) : JArr
  deriving DecidableEq

/-- Sequence of key/value members (object contents, in insertion order). -/
inductive JObj where
  | nil : JObj
  | cons (key : Str) (val : JValue) (tl : JObj) : JObj
  deriving DecidableEq
end

/-- Truthiness of a JavaScript value, as used by `if (cached)`,
`json.delta || json.content || ''` and `if (!delta)` in the source. -/
def truthy : JValue → Bool
  | .jnull => false
  | .jbool b => b
  | .jnum n => decide (n ≠ 0)
  | .jstr s => !s.isEmpty
  | .jarr _ => true
  | .jobj _ => true

/-- Property lookup on an object body (first occurrence wins; the objects
built by the verified code never contain duplicate keys). -/
def objLookup : JObj → Str → Option JValue
  | .nil, _ => none
  | .cons key v tl, k => if key = k then some v else objLookup tl k

/-- Model of JavaScript property access `j.k`: `none` plays the role of
`undefined` (also returned for property access on non-objects). -/
def jGet (j : JValue) (k : Str) : Option JValue :=
  match j with
  | .jobj o => objLookup o k
  | _ => none

/-- Decimal digit list of a natural number. -/
def natDigits (n : Nat) : Str :=
  if h : n < 10 then [Char.ofNat (48 + n)]
  else
    have : n / 10 < n := Nat.div_lt_self (by omega) (by omega)
    natDigits (n / 10) ++ [Char.ofNat (48 + n % 10)]

/-- Decimal rendering of an integer, as JavaScript stringifies numbers. -/
def renderInt (n : Int) : Str :=
  if n < 0 then '-' :: natDigits (-n).toNat else natDigits n.toNat

mutual
/-- Model of JavaScript string coercion `'' + v` for the values that can
reach the string concatenation in the stream consumer. -/
def jsToString : JValue → Str
  | .jnull => str "null"
  | .jbool true => str "true"
  | .jbool false => str "false"
  | .jnum n => renderInt n
  | .jstr s => s
  | .jarr a => arrJoin a
  | .jobj _ => str "[object Object]"

/-- Array `toString`: elements joined with commas. -/
def arrJoin : JArr → Str
  | .nil => []
  | .cons v .nil => elemToString v
  | .cons v tl => elemToString v ++ ',' :: arrJoin tl

/-- Element rendering inside array `toString` (`null` renders empty). -/
def elemToString : JValue → Str
  | .jnull => []
  | v => jsToString v
end

/-- Whitespace accepted between JSON tokens by `JSON.parse`. -/
def jsonWsChar (c : Char) : Bool := c == ' ' || c == '\t' || c == '\n' || c == '\r'

/-- Value of a hexadecimal digit. -/
def hexVal (c : Char) : Option Nat :=
  if '0' ≤ c ∧ c ≤ '9' then some (c.toNat - 48)
  else if 'a' ≤ c ∧ c ≤ 'f' then some (c.toNat - 87)
  else if 'A' ≤ c ∧ c ≤ 'F' then some (c.toNat - 55)
  else none

/-- Single-character JSON string escapes. -/
def simpleEscape (e : Char) : Option Char :=
  if e = '"' then some '"'
  else if e = '\\' then some '\\'
  else if e = '/' then some '/'
  else if e = 'b' then some (Char.ofNat 8)
  else if e = 't' then some '\t'
  else if e = 'n' then some '\n'
  else if e = 'f' then some (Char.ofNat 12)
  else if e = 'r' then some '\r'
  else none

/-- Body of a JSON string literal (after the opening quote): returns the
decoded characters and the remainder after the closing quote. Raw control
characters are rejected, as in `JSON.parse`. -/
def parseStringBody : Str → Option (Str × Str)
  | [] => none
  | c :: rest =>
    if c = '"' then some ([], rest)
    else if c = '\\' then
      match rest with
      | [] => none
      | e :: rest₂ =>
        if e = 'u' then
          match rest₂ with
          | h1 :: h2 :: h3 :: h4 :: rest₄ =>
            match hexVal h1, hexVal h2, hexVal h3, hexVal h4 with
            | some a, some b, some c, some d =>
              (parseStringBody rest₄).map fun p =>
                (Char.ofNat (((a * 16 + b) * 16 + c) * 16 + d) :: p.1, p.2)
            | _, _, _, _ => none
          | _ => none
        else
          match simpleEscape e with
          | some c => (parseStringBody rest₂).map fun p => (c :: p.1, p.2)
          | none => none
    else if c.toNat < 32 then none
    else (parseStringBody rest).map fun p => (c :: p.1, p.2)
termination_by l => l.length
decreasing_by all_goals (simp_all; try omega)

/-- Numeric value of a digit list. -/
def digitsVal (ds : Str) : Nat := ds.foldl (fun acc c => acc * 10 + (c.toNat - 48)) 0

/-- Maximal digit run at the head of the input, with its value. -/
def parseNatTok (l : Str) : Option (Nat × Str) :=
  let ds := l.takeWhile (·.isDigit)
  if ds.isEmpty then none else some (digitsVal ds, l.drop ds.length)

/-- Integer JSON numbers (optional minus sign and digits). -/
def parseNumber (l : Str) : Option (JValue × Str) :=
  if l.head? = some '-' then (parseNatTok l.tail).map fun p => (JValue.jnum (-(p.1 : Int)), p.2)
  else (parseNatTok l).map fun p => (JValue.jnum (p.1 : Int), p.2)

mutual
/-- Fuel-indexed JSON value parser modelling `JSON.parse`; `none` plays the
role of a thrown `SyntaxError`. -/
def parseValue : Nat → Str → Option (JValue × Str)
  | 0, _ => none
  | fuel + 1, l =>
    match l.dropWhile jsonWsChar with
    | [] => none
    | c :: rest =>
      if c = '"' then (parseStringBody rest).map fun p => (JValue.jstr p.1, p.2)
      else if c = '{' then parseMembers fuel (rest.dropWhile jsonWsChar)
      else if c = '[' then parseElems fuel (rest.dropWhile jsonWsChar)
      else if c = 't' then
        (if (str "rue").isPrefixOf rest then some (JValue.jbool true, rest.drop 3) else none)
      else if c = 'f' then
        (if (str "alse").isPrefixOf rest then some (JValue.jbool false, rest.drop 4) else none)
      else if c = 'n' then
        (if (str "ull").isPrefixOf rest then some (JValue.jnull, rest.drop 3) else none)
      else if c = '-' ∨ c.isDigit then parseNumber (c :: rest)
      else none

/-- Array contents after the opening bracket (leading whitespace skipped). -/
def parseElems : Nat → Str → Option (JValue × Str)
  | 0, _ => none
  | fuel + 1, l =>
    if l.head? = some ']' then some (JValue.jarr JArr.nil, l.tail)
    else
      (parseValue fuel l).bind fun p =>
      (parseArrTail fuel p.2).map fun q => (JValue.jarr (JArr.cons p.1 q.1), q.2)

/-- Array continuation: either a comma and another element, or the closing
bracket. -/
def parseArrTail : Nat → Str → Option (JArr × Str)
  | 0, _ => none
  | fuel + 1, l =>
    let l₁ := l.dropWhile jsonWsChar
    match l₁ with
    | ']' :: rest => some (JArr.nil, rest)
    | ',' :: rest =>
      (parseValue fuel rest).bind fun p =>
      (parseArrTail fuel p.2).map fun q => (JArr.cons p.1 q.1, q.2)
    | _ => none

/-- Object contents after the opening brace (leading whitespace skipped). -/
def parseMembers : Nat → Str → Option (JValue × Str)
  | 0, _ => none
  | fuel + 1, l =>
    if l.head? = some '}' then some (JValue.jobj JObj.nil, l.tail)
    else
      (parseMember fuel l).bind fun p =>
      (parseObjTail fuel p.2).map fun q => (JValue.jobj (JObj.cons p.1.1 p.1.2 q.1), q.2)

/-- Single `"key": value` member (leading whitespace allowed). -/
def parseMember : Nat → Str → Option ((Str × JValue) × Str)
  | 0, _ => none
  | fuel + 1, l =>
    match l.dropWhile jsonWsChar with
    | '"' :: rest =>
      (parseStringBody rest).bind fun pk =>
        match pk.2.dropWhile jsonWsChar with
        | ':' :: rest₂ => (parseValue fuel rest₂).map fun pv => ((pk.1, pv.1), pv.2)
        | _ => none
    | _ => none

/-- Object continuation: either a comma and another member, or the closing
brace. -/
def parseObjTail : Nat → Str → Option (JObj × Str)
  | 0, _ => none
  | fuel + 1, l =>
    match l.dropWhile jsonWsChar with
    | '}' :: rest => some (JObj.nil, rest)
    | ',' :: rest =>
      (parseMember fuel rest).bind fun p =>
      (parseObjTail fuel p.2).map fun q => (JObj.cons p.1.1 p.1.2 q.1, q.2)
    | _ => none
end

/-- Model of `JSON.parse`: parse one value and require only whitespace to
remain. -/
def jsonParse (l : Str) : Option JValue :=
  match parseValue (l.length + 2) l with
  | some (v, rest) => if (rest.dropWhile jsonWsChar).isEmpty then some v else none
  | none => none

/-!
SSE stream consumer: the `while (true)` read loop of `send` in
`src/components/ChatSidebar.tsx` (lines 40-63). Chunks are the text produced
by `decoder.decode(value, { stream: true })`; the streaming text decoder
carries partial multi-byte sequences across reads, so for well-formed UTF-8
the byte-level reassembly is faithful to working at the string level.
-/

/-- Accumulated assistant content together with the ordered sequence of
appended deltas (each `ssePush` models one `setMessages` update). -/
structure SSEState where
  content : Str
  emitted : List Str
  deriving DecidableEq

/-- Initial state: empty assistant message. -/
def sseInit : SSEState := ⟨[], []⟩

/-- Append one delta to the assistant content, recording the emission. -/
def ssePush (st : SSEState) (d : Str) : SSEState := ⟨st.content ++ d, st.emitted ++ [d]⟩

/-- Truthiness of an optional value (`undefined` is falsy). -/
def truthyOpt : Option JValue → Bool
  | some v => truthy v
  | none => false

/-- Model of `json.delta || json.content || ''` followed by `if (!delta)`:
the first truthy candidate, if any. -/
def pickDelta (j : JValue) : Option JValue :=
  if truthyOpt (jGet j (str "delta")) then jGet j (str "delta")
  else if truthyOpt (jGet j (str "content")) then jGet j (str "content")
  else none

/-- Per-line processing of the read loop: trim, require the `data:` prefix,
strip it and trim, skip the `[DONE]` sentinel, then either parse JSON and
append the extracted delta or fall back to appending the raw payload. -/
def processLine (st : SSEState) (line : Str) : SSEState :=
  if !(str "data:").isPrefixOf (jsTrim line) then st
  else if jsTrim ((jsTrim line).drop 5) = str "[DONE]" then st
  else
    match jsonParse (jsTrim ((jsTrim line).drop 5)) with
    | some j =>
      match pickDelta j with
      | some v => ssePush st (jsToString v)
      | none => st
    | none => ssePush st (jsTrim ((jsTrim line).drop 5))

/-- Per-chunk processing: `chunk.split('\n')` followed by the `for` loop
over the lines. No fragment is carried over to the next chunk. -/
def processChunk (st : SSEState) (chunk : Str) : SSEState :=
  (splitNl chunk).foldl processLine st

/-- Whole-stream processing: the read loop over the successive chunks. -/
def runStream (chunks : List Str) : SSEState :=
  chunks.foldl processChunk sseInit

/-- How the underlying byte stream ends: a clean close (`done` from the
reader) or a read failure (rejected `read()` promise). -/
inductive EndKind where
  | clean : EndKind
  | failed : EndKind
  deriving DecidableEq

/-- Caller-visible outcome of one streaming session: the accumulated
assistant content (which stays in the message list) and whether the
catch-block error notice was appended. -/
structure SessionOut where
  content : Str
  errorNotice : Bool
  deriving DecidableEq

/-- Model of one full `send` session: all delivered chunks are processed,
then a clean close just breaks the loop while a read failure reaches the
catch block, which appends the error message. -/
def runSession (chunks : List Str) (e : EndKind) : SessionOut :=
  let st := runStream chunks
  match e with
  | .clean => ⟨st.content, false⟩
  | .failed => ⟨st.content, true⟩

/-!
Model of `JSON.stringify` (canonical output: no inserted whitespace, object
members in insertion order, control characters escaped).
-/

/-- Lower-case hexadecimal digit. -/
def hexDigit (m : Nat) : Char := if m < 10 then Char.ofNat (48 + m) else Char.ofNat (87 + m)

/-- Escape of a single character inside a JSON string literal, as produced
by `JSON.stringify`. -/
def escJsonChar (c : Char) : Str :=
  if c = '"' then ['\\', '"']
  else if c = '\\' then ['\\', '\\']
  else if c = Char.ofNat 8 then ['\\', 'b']
  else if c = '\t' then ['\\', 't']
  else if c = '\n' then ['\\', 'n']
  else if c = Char.ofNat 12 then ['\\', 'f']
  else if c = '\r' then ['\\', 'r']
  else if c.toNat < 32 then ['\\', 'u', '0', '0', hexDigit (c.toNat / 16), hexDigit (c.toNat % 16)]
  else [c]

/-- Escaped body of a JSON string literal. -/
def escJson (s : Str) : Str := s.foldr (fun c acc => escJsonChar c ++ acc) []

mutual
/-- Serialization of a value, modelling `JSON.stringify`. -/
def renderJ : JValue → Str
  | .jnull => str "null"
  | .jbool true => str "true"
  | .jbool false => str "false"
  | .jnum n => renderInt n
  | .jstr s => '"' :: (escJson s ++ ['"'])
  | .jarr a => '[' :: (renderArr a ++ [']'])
  | .jobj o => '{' :: (renderObj o ++ ['}'])

/-- Comma-separated array elements. -/
def renderArr : JArr → Str
  | .nil => []
  | .cons v .nil => renderJ v
  | .cons v tl => renderJ v ++ ',' :: renderArr tl

/-- Comma-separated object members. -/
def renderObj : JObj → Str
  | .nil => []
  | .cons k v .nil => ('"' :: (escJson k ++ ['"', ':'])) ++ renderJ v
  | .cons k v tl => (('"' :: (escJson k ++ ['"', ':'])) ++ renderJ v) ++ ',' :: renderObj tl
end

/-!
TTL caches from `src/utils/clientCache.ts`. The memory cache (`ClientCache`)
is a `Map` from keys to `\x7b data, expires \x7d` records; the persistent cache
(`localStorageCache`) stores `JSON.stringify`-serialized records in the
string-to-string store `localStorage`. `Date.now()` is passed explicitly as
a `now : Nat` argument, and mutation is modelled by returning the new store.
-/

/-- Cache entry: payload plus absolute expiry timestamp. -/
structure CacheEntry where
  data : JValue
  expires : Nat
  deriving DecidableEq

/-- Association-list model of a string-keyed mutable store (used both for
the `Map` backing `ClientCache` and for `localStorage`); insertion order is
preserved, as in both JavaScript APIs. -/
def mapLookup {α : Type} (m : List (Str × α)) (k : Str) : Option α :=
  match m with
  | [] => none
  | (k', e) :: tl => if k' = k then some e else mapLookup tl k

/-- Removal of a key (`Map.delete` / `localStorage.removeItem`), idempotent. -/
def mapDelete {α : Type} (m : List (Str × α)) (k : Str) : List (Str × α) :=
  m.filter (fun kv => kv.1 ≠ k)

/-- Write of a key (`Map.set` / `localStorage.setItem`): overwrite in place
if present, else append. -/
def mapSet {α : Type} (m : List (Str × α)) (k : Str) (e : α) : List (Str × α) :=
  if (mapLookup m k).isSome then m.map (fun kv => if kv.1 = k then (k, e) else kv)
  else m ++ [(k, e)]

/-- Backing map of `ClientCache`. -/
abbrev CacheMap := List (Str × CacheEntry)

/-- Model of `ClientCache.set` (clientCache.ts lines 5-10). -/
def ClientCache.set (m : CacheMap) (k : Str) (data : JValue) (ttl now : Nat) : CacheMap :=
  mapSet m k ⟨data, now + ttl⟩

/-- Model of `ClientCache.get` (clientCache.ts lines 12-19): lazy expiry,
the stale or absent entry is deleted and `null` returned. -/
def ClientCache.get (m : CacheMap) (now : Nat) (k : Str) : Option JValue × CacheMap :=
  match mapLookup m k with
  | none => (none, mapDelete m k)
  | some e => if now > e.expires then (none, mapDelete m k) else (some e.data, m)

/-- Model of `ClientCache.has` (clientCache.ts lines 21-28). -/
def ClientCache.has (m : CacheMap) (now : Nat) (k : Str) : Bool × CacheMap :=
  match mapLookup m k with
  | none => (false, mapDelete m k)
  | some e => if now > e.expires then (false, mapDelete m k) else (true, m)

/-- Model of `ClientCache.delete`. -/
def ClientCache.deleteKey (m : CacheMap) (k : Str) : CacheMap := mapDelete m k

/-- String-to-string association-list model of `localStorage`. -/
abbrev Store := List (Str × Str)

/-- Model of `localStorage.getItem`. -/
def storeGetItem (s : Store) (k : Str) : Option Str := mapLookup s k

/-- Model of `localStorage.setItem`. -/
def storeSetItem (s : Store) (k v : Str) : Store := mapSet s k v

/-- Model of `localStorage.removeItem`. -/
def storeRemoveItem (s : Store) (k : Str) : Store := mapDelete s k

/-- Record written by `localStorageCache.set`: `\x7b data, expires: now + ttl \x7d`. -/
def lsItem (data : JValue) (expires : Nat) : JValue :=
  JValue.jobj (JObj.cons (str "data") data
    (JObj.cons (str "expires") (JValue.jnum (expires : Int)) JObj.nil))

/-- Model of `localStorageCache.set` (clientCache.ts lines 45-55): the key
is used verbatim, with no namespace prefix added. -/
def lsSet (s : Store) (k : Str) (data : JValue) (ttl now : Nat) : Store :=
  storeSetItem s k (renderJ (lsItem data (now + ttl)))

/-- Comparison `Date.now() > parsed.expires`: false when the field is
missing or not a number (NaN comparison), numeric comparison otherwise. -/
def expiredAt (now : Nat) (parsed : JValue) : Bool :=
  match jGet parsed (str "expires") with
  | some (.jnum e) => decide ((now : Int) > e)
  | _ => false

/-- Model of `localStorageCache.get` (clientCache.ts lines 57-72): a parse
failure is caught and treated as a miss; an expired record is removed. -/
def lsGet (s : Store) (now : Nat) (k : Str) : Option JValue × Store :=
  match storeGetItem s k with
  | none => (none, s)
  | some raw =>
    match jsonParse raw with
    | none => (none, s)
    | some parsed =>
      if expiredAt now parsed then (none, storeRemoveItem s k)
      else (jGet parsed (str "data"), s)

/-- Model of `localStorageCache.has` (clientCache.ts lines 74-89). -/
def lsHas (s : Store) (now : Nat) (k : Str) : Bool × Store :=
  match storeGetItem s k with
  | none => (false, s)
  | some raw =>
    match jsonParse raw with
    | none => (false, s)
    | some parsed =>
      if expiredAt now parsed then (false, storeRemoveItem s k)
      else (true, s)

/-- Model of `localStorageCache.delete`. -/
def lsDelete (s : Store) (k : Str) : Store := storeRemoveItem s k

/-- Model of `localStorageCache.clear` (clientCache.ts lines 99-111):
remove exactly the keys starting with the literal prefix `smartnotes-`. -/
def lsClear (s : Store) : Store :=
  s.filter (fun kv => !(str "smartnotes-").isPrefixOf kv.1)

/-!
Cache-aware fetch hook `useApiCache` (src/hooks/useApiCache.ts lines 5-44),
memory-cache variant (`useLocalStorage = false`). The effect body and the
promise callbacks are modelled as a step function over an explicit trace of
events: effect runs and resolutions of in-flight producer calls. The
resolution handler stores the result into `data` unconditionally — the
source has no "is this still the active key" guard.
-/

/-- One in-flight producer invocation, with the ttl captured by its
closure. -/
structure PendingFetch where
  key : Str
  ttl : Nat
  deriving DecidableEq

/-- Hook-visible state (`data`, `loading`, `error`) together with the
module-level cache singleton and the in-flight producer calls. -/
structure HookState where
  data : Option JValue
  loading : Bool
  error : Option Str
  cache : CacheMap
  pending : List PendingFetch
  deriving DecidableEq

/-- Initial hook state over a given cache content. -/
def hookInit (m : CacheMap) : HookState := ⟨none, false, none, m, []⟩

/-- Events of one hook trace: an effect run (key, enabled flag, ttl, time)
or the settlement of the i-th in-flight producer call. -/
inductive HookEvent where
  | effectRun (key : Str) (enabled : Bool) (ttl : Nat) (now : Nat)
  | fetchOk (i : Nat) (result : JValue) (now : Nat)
  | fetchErr (i : Nat) (msg : Str)
  deriving DecidableEq

/-- Transition function for the hook: the effect body (cache probe with a
truthiness test, else fetch start) and the `.then`/`.catch`/`.finally`
handlers of a settling producer call. -/
def hookStep (s : HookState) : HookEvent → HookState
  | .effectRun key enabled ttl now =>
    if !enabled then s
    else
      let r := ClientCache.get s.cache now key
      match r.1 with
      | some v =>
        if truthy v then { s with cache := r.2, data := some v }
        else { s with cache := r.2, loading := true, error := none,
                      pending := s.pending ++ [⟨key, ttl⟩] }
      | none => { s with cache := r.2, loading := true, error := none,
                         pending := s.pending ++ [⟨key, ttl⟩] }
  | .fetchOk i result now =>
    match s.pending[i]? with
    | none => s
    | some req =>
      { s with data := some result,
               cache := ClientCache.set s.cache req.key result req.ttl now,
               loading := false,
               pending := s.pending.eraseIdx i }
  | .fetchErr i msg =>
    match s.pending[i]? with
    | none => s
    | some _ => { s with error := some msg, loading := false, pending := s.pending.eraseIdx i }

/-!
Incremental message renderer `renderChatHtml`
(src/components/ChatSidebar.tsx lines 162-237). Every global regex
replacement of the source is modelled by a left-to-right scanner with the
exact JavaScript semantics: at each position the pattern either matches
(greedily, with the lookaround and backtracking behaviour of the concrete
regex) and scanning resumes after the match, or the position's character is
copied and scanning advances by one. The scanners carry a fuel argument
bounded below by the input length; fuel zero returns the remaining input
unchanged and is never reached from the wrappers.
-/

/-- Model of `String.replace` with a single-character global pattern. -/
def replaceAllChar (t : Char) (rep : Str) : Str → Str
  | [] => []
  | c :: l => (if c = t then rep else [c]) ++ replaceAllChar t rep l

/-- Escape function `esc` of the renderer: the three sequential global
replaces for ampersand, less-than and greater-than. -/
def esc (l : Str) : Str :=
  replaceAllChar '>' (str "&gt;")
    (replaceAllChar '<' (str "&lt;")
      (replaceAllChar '&' (str "&amp;") l))

/-- Inline code spans: the backtick pattern (one backtick, one or more
non-backtick characters, one backtick) replaced by a `code` element. -/
def replaceCode : Nat → Str → Str
  | 0, l => l
  | _ + 1, [] => []
  | fuel + 1, c :: rest =>
    if c = btick then
      let grp := rest.takeWhile (· ≠ btick)
      match rest.drop grp.length with
      | _ :: tail =>
        if grp.isEmpty then c :: replaceCode fuel rest
        else str "<code>" ++ grp ++ str "</code>" ++ replaceCode fuel tail
      | [] => c :: replaceCode fuel rest
    else c :: replaceCode fuel rest

/-- Bold spans: doubled marker, one or more characters other than the
marker, doubled marker, replaced by a `strong` element (used for the
star and underscore patterns of the source). -/
def replaceDouble (mark : Char) : Nat → Str → Str
  | 0, l => l
  | _ + 1, [] => []
  | fuel + 1, c :: rest =>
    if c = mark ∧ rest.head? = some mark then
      let rest₂ := rest.tail
      let grp := rest₂.takeWhile (· ≠ mark)
      if grp.isEmpty then c :: replaceDouble mark fuel rest
      else
        match rest₂.drop grp.length with
        | m₁ :: m₂ :: tail =>
          if m₁ = mark ∧ m₂ = mark then
            str "<strong>" ++ grp ++ str "</strong>" ++ replaceDouble mark fuel tail
          else c :: replaceDouble mark fuel rest
        | _ => c :: replaceDouble mark fuel rest
    else c :: replaceDouble mark fuel rest

/-- Italic spans: single marker with negative lookbehind and lookahead for
the marker, replaced by an `em` element; `prev` is the character preceding
the scan position in the source string. -/
def replaceSingle (mark : Char) : Nat → Option Char → Str → Str
  | 0, _, l => l
  | _ + 1, _, [] => []
  | fuel + 1, prev, c :: rest =>
    if c = mark ∧ prev ≠ some mark then
      let grp := rest.takeWhile (· ≠ mark)
      if grp.isEmpty then c :: replaceSingle mark fuel (some c) rest
      else
        match rest.drop grp.length with
        | _ :: tail =>
          if tail.head? = some mark then c :: replaceSingle mark fuel (some c) rest
          else str "<em>" ++ grp ++ str "</em>" ++ replaceSingle mark fuel (some mark) tail
        | [] => c :: replaceSingle mark fuel (some c) rest
    else c :: replaceSingle mark fuel (some c) rest

/-- Character class `[^\s)]` of the link pattern. -/
def urlChar (c : Char) : Bool := !jsWs c && decide (c ≠ ')')

/-- Test whether `[^<]*>` matches at the head of the input, i.e. whether a
greater-than sign occurs before any less-than sign. -/
def hasGtBeforeLt : Str → Bool
  | [] => false
  | c :: rest => if c = '>' then true else if c = '<' then false else hasGtBeforeLt rest

/-- Backtracking over the greedy URL run, longest candidate first, until
the negative lookahead `(?![^<]*>)` succeeds; arguments are the reversed
candidate run and the remainder of the string. -/
def pickUrlLen : Str → Str → Option (Str × Str)
  | [], _ => none
  | c :: revRest, rest =>
    if hasGtBeforeLt rest then pickUrlLen revRest (c :: rest)
    else some ((c :: revRest).reverse, rest)

/-- Protocol alternative `https?:\/\/` of the link pattern. -/
def linkProto (l : Str) : Option (Str × Str) :=
  if (str "https://").isPrefixOf l then some (str "https://", l.drop 8)
  else if (str "http://").isPrefixOf l then some (str "http://", l.drop 7)
  else none

/-- Attempted link match at the current position: protocol, greedy
`[^\s)]+` run, then lookahead-driven backtracking. -/
def tryLink (l : Str) : Option (Str × Str) :=
  match linkProto l with
  | none => none
  | some (proto, after) =>
    let run := after.takeWhile urlChar
    match pickUrlLen run.reverse (after.drop run.length) with
    | none => none
    | some (chosen, rest) => some (proto ++ chosen, rest)

/-- Bare-URL linkification: matched URLs become anchor elements with the
URL doubled into the `href` attribute and the link text. -/
def replaceLinks : Nat → Str → Str
  | 0, l => l
  | _ + 1, [] => []
  | fuel + 1, c :: rest =>
    match tryLink (c :: rest) with
    | some (url, rest') =>
      str "<a class=\"underline\" href=\"" ++ url ++
        str "\" target=\"_blank\" rel=\"noopener noreferrer\">" ++ url ++ str "</a>" ++
        replaceLinks fuel rest'
    | none => c :: replaceLinks fuel rest

/-- Inline pass of the renderer: escape first, then code spans, bold
(stars, then underscores), italic (stars, then underscores), then
linkification — in exactly the order of the source. -/
def inline (s : Str) : Str :=
  let o₁ := esc s
  let o₂ := replaceCode (o₁.length + 1) o₁
  let o₃ := replaceDouble '*' (o₂.length + 1) o₂
  let o₄ := replaceDouble '_' (o₃.length + 1) o₃
  let o₅ := replaceSingle '*' (o₄.length + 1) none o₄
  let o₆ := replaceSingle '_' (o₅.length + 1) none o₅
  replaceLinks (o₆.length + 1) o₆

/-- Model of `split(/\r?\n/)`: a newline, optionally preceded by a carriage
return, separates lines; a lone carriage return does not. -/
def splitLines : Str → List Str
  | [] => [[]]
  | c :: rest =>
    if c = '\n' then [] :: splitLines rest
    else if c = '\r' then
      match rest with
      | '\n' :: rest2 => [] :: splitLines rest2
      | [] => [[c]]
      | d :: rest2 =>
        match splitLines (d :: rest2) with
        | [] => [[c]]
        | h :: t => (c :: h) :: t
    else
      match splitLines rest with
      | [] => [[c]]
      | h :: t => (c :: h) :: t

/-- Fence test `lines[i].trim().startsWith('```')`. -/
def isFence (l : Str) : Bool := (str "```").isPrefixOf (jsTrim l)

/-- Bullet-line pattern `^\s*[-*]\s+`: on success, the line with the
matched prefix removed (the replacement result). -/
def bulletMatch (l : Str) : Option Str :=
  match l.dropWhile jsWs with
  | c :: rest =>
    if c = '-' ∨ c = '*' then
      match rest.head? with
      | some w => if jsWs w then some (rest.dropWhile jsWs) else none
      | none => none
    else none
  | [] => none

/-- Separator class `[\.|\)|、|．]` of the numbered-line pattern
(the vertical bar is a literal member of the class). -/
def numSep (c : Char) : Bool :=
  c == '.' || c == '|' || c == ')' || c.toNat == 0x3001 || c.toNat == 0xFF0E

/-- Tail of the numbered-line pattern after the optional bold marker:
`\s*\d+[sep]\s+`, returning the line with the matched prefix removed. -/
def numTail (r : Str) : Option Str :=
  let r₁ := r.dropWhile jsWs
  let ds := r₁.takeWhile (·.isDigit)
  if ds.isEmpty then none
  else
    match r₁.drop ds.length with
    | s :: r₂ =>
      if numSep s then
        match r₂.head? with
        | some w => if jsWs w then some (r₂.dropWhile jsWs) else none
        | none => none
      else none
    | [] => none

/-- Numbered-line pattern `^\s*(?:\*\*|__)?\s*\d+[\.|\)|、|．]\s+`
with the alternation order of the regex engine. -/
def numMatch (l : Str) : Option Str :=
  let r := l.dropWhile jsWs
  match (if (str "**").isPrefixOf r then numTail (r.drop 2) else none) with
  | some t => some t
  | none =>
    match (if (str "__").isPrefixOf r then numTail (r.drop 2) else none) with
    | some t => some t
    | none => numTail r

/-- Concatenation of a block or item list (`join('')`). -/
def joinStrs (ls : List Str) : Str := ls.foldr (· ++ ·) []

/-- Join with a separator (`join('\n')`, `join(' ')`). -/
def joinWith (sep : Str) : List Str → Str
  | [] => []
  | [x] => x
  | x :: xs => x ++ sep ++ joinWith sep xs

/-- Opening tag of an unordered list block. -/
def ulOpen : Str := str "<ul class=\"list-disc pl-5\">"

/-- Opening tag of an ordered list block. -/
def olOpen : Str := str "<ol class=\"list-decimal pl-5\">"

/-- List item for a bullet line: matched prefix stripped, inline pass
applied. -/
def liBullet (x : Str) : Str := str "<li>" ++ inline ((bulletMatch x).getD x) ++ str "</li>"

/-- List item for a numbered line. -/
def liNum (x : Str) : Str := str "<li>" ++ inline ((numMatch x).getD x) ++ str "</li>"

/-- Block loop of the renderer (the `while (i < lines.length)` loop):
fenced code block, bullet group, numbered group, else paragraph up to the
next blank line. Fuel decreases once per iteration; each iteration consumes
at least one line, so `lines.length + 1` fuel is always sufficient. -/
def renderLoop : Nat → List Str → List Str
  | _, [] => []
  | 0, _ => []
  | fuel + 1, l :: ls =>
    if isFence l then
      let code := ls.takeWhile (fun x => !isFence x)
      let rest := ls.drop code.length
      (str "<pre><code>" ++ esc (joinWith ['\n'] code) ++ str "</code></pre>")
        :: renderLoop fuel rest.tail
    else
      match bulletMatch l with
      | some _ =>
        let grp := (l :: ls).takeWhile (fun x => (bulletMatch x).isSome)
        let rest := (l :: ls).drop grp.length
        (ulOpen ++ joinStrs (grp.map liBullet) ++ str "</ul>") :: renderLoop fuel rest
      | none =>
        match numMatch l with
        | some _ =>
          let grp := (l :: ls).takeWhile (fun x => (numMatch x).isSome)
          let rest := (l :: ls).drop grp.length
          (olOpen ++ joinStrs (grp.map liNum) ++ str "</ol>") :: renderLoop fuel rest
        | none =>
          let para := (l :: ls).takeWhile (fun x => !(jsTrim x).isEmpty)
          let rest := (l :: ls).drop para.length
          let rest₂ := rest.dropWhile (fun x => (jsTrim x).isEmpty)
          if para.isEmpty then renderLoop fuel rest₂
          else (str "<p>" ++ inline (joinWith [' '] para) ++ str "</p>") :: renderLoop fuel rest₂

/-- Character-list version of `renderChatHtml`: split into lines, run the
block loop, join the blocks. -/
def renderChatHtmlStr (md : Str) : Str :=
  let lines := splitLines md
  joinStrs (renderLoop (lines.length + 1) lines)

/-- Model of `renderChatHtml` (ChatSidebar.tsx lines 162-237). -/
def renderChatHtml (md : String) : String :=
  String.mk (renderChatHtmlStr (str md))


/-- The three-character pattern every opening script tag starts with. -/
def scPat : Str := ['<', 's', 'c']

/-- Substring test: does `p` occur as a contiguous run inside the string? -/
def hasSub (p : Str) : Str → Bool
  | [] => p.isEmpty
  | c :: t => p.isPrefixOf (c :: t) || hasSub p t

/-- Absence of the pattern `<sc`: the invariant preserved by the renderer. -/
abbrev NoSc (l : Str) : Prop := ¬ scPat <:+: l


mutual
/-- Fuel bound sufficient for the parser on the rendering of a value. -/
def needV : JValue → Nat
  | .jnull => 1
  | .jbool _ => 1
  | .jnum _ => 1
  | .jstr _ => 1
  | .jarr a => 1 + needA a
  | .jobj o => 1 + needO o

/-- Fuel bound for array contents. -/
def needA : JArr → Nat
  | .nil => 1
  | .cons v tl => 1 + max (needV v) (needA tl)

/-- Fuel bound for object contents. -/
def needO : JObj → Nat
  | .nil => 1
  | .cons _ v tl => 1 + max (1 + needV v) (needO tl)
end

/-- Head of the separator tail of an array rendering is a comma or the
closing bracket — never a digit. -/
def arrSep : JArr → Str
  | .nil => []
  | .cons v tl => ',' :: renderArr (.cons v tl)

/-- Separator tail of an object rendering. -/
def objSep : JObj → Str
  | .nil => []
  | .cons k v tl => ',' :: renderObj (.cons k v tl)

/-- Rendering of one object member. -/
def memberStr (k : Str) (v : JValue) : Str := ('"' :: (escJson k ++ ['"', ':'])) ++ renderJ v

/-!
Helper lemmas about the store model and the stream consumer.
-/

/-!
JSON round-trip: `JSON.parse` recovers what `JSON.stringify` wrote.
-/

/-- Character distinctness via code points. -/
theorem char_ne_of_toNat {c d : Char} (h : c.toNat ≠ d.toNat) : c ≠ d :=
  fun he => h (he ▸ rfl)

theorem isDigit_toNat {c : Char} (h : c.isDigit = true) : 48 ≤ c.toNat ∧ c.toNat ≤ 57 := by
  simp [Char.isDigit, Char.le_def] at h
  obtain ⟨h1, h2⟩ := h
  constructor
  · exact h1
  · exact h2

theorem digit_char_facts : ∀ d : Nat, d < 10 →
    ((Char.ofNat (48 + d)).isDigit = true ∧ jsonWsChar (Char.ofNat (48 + d)) = false ∧
      (Char.ofNat (48 + d)).toNat = 48 + d) := by decide

theorem natDigits_digits (n : Nat) : ∀ c ∈ natDigits n, c.isDigit = true := by
  induction n using natDigits.induct with
  | case1 n h =>
    intro c hc
    rw [natDigits, dif_pos h] at hc
    simp at hc
    subst hc
    exact (digit_char_facts n h).1
  | case2 n h _ ih =>
    intro c hc
    rw [natDigits, dif_neg h] at hc
    simp at hc
    rcases hc with hc | hc
    · exact ih c hc
    · subst hc
      exact (digit_char_facts (n % 10) (Nat.mod_lt n (by omega))).1

theorem natDigits_ne_nil (n : Nat) : natDigits n ≠ [] := by
  rw [natDigits]
  by_cases h : n < 10
  · rw [dif_pos h]; simp
  · rw [dif_neg h]; simp

theorem digitsVal_append_one (ds : Str) (c : Char) :
    digitsVal (ds ++ [c]) = digitsVal ds * 10 + (c.toNat - 48) := by
  simp [digitsVal, List.foldl_append]

theorem digitsVal_natDigits (n : Nat) : digitsVal (natDigits n) = n := by
  induction n using natDigits.induct with
  | case1 n h =>
    rw [natDigits, dif_pos h]
    simp [digitsVal, (digit_char_facts n h).2.2]
  | case2 n h _ ih =>
    rw [natDigits, dif_neg h]
    rw [digitsVal_append_one, ih, (digit_char_facts (n % 10) (Nat.mod_lt n (by omega))).2.2]
    omega

theorem takeWhile_all_append (p : Char → Bool) (ds rest : Str)
    (hds : ∀ c ∈ ds, p c = true) (hrest : ∀ c, rest.head? = some c → p c = false) :
    (ds ++ rest).takeWhile p = ds ∧ (ds ++ rest).drop ds.length = rest := by
  constructor
  · induction ds with
    | nil =>
      cases rest with
      | nil => rfl
      | cons r rs => simp [List.takeWhile_cons, hrest r rfl]
    | cons d ds ih =>
      simp only [List.cons_append, List.takeWhile_cons, hds d (by simp)]
      simp [ih (fun c hc => hds c (by simp [hc]))]
  · simp [List.drop_left]

theorem parseNatTok_natDigits (n : Nat) (rest : Str)
    (hrest : ∀ c, rest.head? = some c → c.isDigit = false) :
    parseNatTok (natDigits n ++ rest) = some (n, rest) := by
  obtain ⟨ht, hd⟩ := takeWhile_all_append (·.isDigit) (natDigits n) rest (natDigits_digits n) hrest
  simp only [parseNatTok, ht, hd]
  rw [if_neg (by simp [List.isEmpty_iff, natDigits_ne_nil n])]
  rw [digitsVal_natDigits]

theorem digit_ne_minus {c : Char} (h : c.isDigit = true) : c ≠ '-' := by
  intro he
  subst he
  simp [Char.isDigit] at h

theorem parseNumber_renderInt (i : Int) (rest : Str)
    (hrest : ∀ c, rest.head? = some c → c.isDigit = false) :
    parseNumber (renderInt i ++ rest) = some (JValue.jnum i, rest) := by
  rw [renderInt]
  by_cases hneg : i < 0
  · rw [if_pos hneg]
    simp only [List.cons_append, parseNumber, List.head?_cons, Option.some.injEq, if_pos,
      List.tail_cons]
    rw [parseNatTok_natDigits _ _ hrest]
    simp only [Option.map_some']
    have h2 : ((-i).toNat : Int) = -i := Int.toNat_of_nonneg (by omega)
    rw [h2, neg_neg]
  · rw [if_neg hneg]
    obtain ⟨d, tail, hcons⟩ : ∃ d tail, natDigits i.toNat = d :: tail := by
      cases hnd : natDigits i.toNat with
      | nil => exact absurd hnd (natDigits_ne_nil _)
      | cons d tail => exact ⟨d, tail, rfl⟩
    have hd : d.isDigit = true := natDigits_digits i.toNat d (by rw [hcons]; simp)
    have hne : ¬ (natDigits i.toNat ++ rest).head? = some '-' := by
      rw [hcons]
      simp only [List.cons_append, List.head?_cons, Option.some.injEq]
      exact digit_ne_minus hd
    rw [parseNumber, if_neg hne]
    rw [parseNatTok_natDigits _ _ hrest]
    simp only [Option.map_some']
    rw [Int.toNat_of_nonneg (by omega)]



theorem hexVal_hexDigit : ∀ m : Nat, m < 16 → hexVal (hexDigit m) = some m := by decide

theorem parseStringBody_escJson (s rest : Str) :
    parseStringBody (escJson s ++ '"' :: rest) = some (s, rest) := by
  induction s with
  | nil =>
    rw [show escJson [] = [] from rfl, List.nil_append, parseStringBody.eq_def]
    simp
  | cons c cs ih =>
    have hstep : escJson (c :: cs) = escJsonChar c ++ escJson cs := rfl
    rw [hstep, List.append_assoc, escJsonChar]
    by_cases h1 : c = '"'
    · subst h1; rw [if_pos rfl, parseStringBody.eq_def]; simp [simpleEscape, ih]
    · rw [if_neg h1]
      by_cases h2 : c = '\\'
      · subst h2; rw [if_pos rfl, parseStringBody.eq_def]; simp [simpleEscape, ih]
      · rw [if_neg h2]
        by_cases h3 : c = Char.ofNat 8
        · subst h3; rw [if_pos rfl, parseStringBody.eq_def]; simp [simpleEscape, ih]
        · rw [if_neg h3]
          by_cases h4 : c = '\t'
          · subst h4; rw [if_pos rfl, parseStringBody.eq_def]; simp [simpleEscape, ih]
          · rw [if_neg h4]
            by_cases h5 : c = '\n'
            · subst h5; rw [if_pos rfl, parseStringBody.eq_def]; simp [simpleEscape, ih]
            · rw [if_neg h5]
              by_cases h6 : c = Char.ofNat 12
              · subst h6; rw [if_pos rfl, parseStringBody.eq_def]; simp [simpleEscape, ih]
              · rw [if_neg h6]
                by_cases h7 : c = '\r'
                · subst h7; rw [if_pos rfl, parseStringBody.eq_def]; simp [simpleEscape, ih]
                · rw [if_neg h7]
                  by_cases h8 : c.toNat < 32
                  · rw [if_pos h8]
                    have hhi : hexVal (hexDigit (c.toNat / 16)) = some (c.toNat / 16) :=
                      hexVal_hexDigit _ (by omega)
                    have hlo : hexVal (hexDigit (c.toNat % 16)) = some (c.toNat % 16) :=
                      hexVal_hexDigit _ (by omega)
                    have h0 : hexVal '0' = some 0 := by decide
                    simp only [List.cons_append, List.nil_append]
                    rw [parseStringBody.eq_def]
                    simp [h0, hhi, hlo, ih]
                    have harith : c.toNat / 16 * 16 + c.toNat % 16 = c.toNat := by omega
                    rw [harith, Char.ofNat_toNat]
                  · rw [if_neg h8]
                    simp only [List.cons_append, List.nil_append]
                    rw [parseStringBody.eq_def]
                    simp [h1, h2, h8, ih]




theorem needV_pos (v : JValue) : 1 ≤ needV v := by
  cases v <;> simp [needV]

theorem needA_pos (a : JArr) : 1 ≤ needA a := by
  cases a <;> simp [needA]

theorem needO_pos (o : JObj) : 1 ≤ needO o := by
  cases o <;> simp [needO]

theorem digit_notspecial {c : Char} (h : c.isDigit = true) :
    jsonWsChar c = false ∧ c ≠ '"' ∧ c ≠ '{' ∧ c ≠ '[' ∧ c ≠ 't' ∧ c ≠ 'f' ∧ c ≠ 'n'
      ∧ c ≠ ']' ∧ c ≠ '}' := by
  obtain ⟨hl, hr⟩ := isDigit_toNat h
  have hne : ∀ d : Char, d.toNat < 48 ∨ 57 < d.toNat → c ≠ d := by
    intro d hd he
    subst he
    omega
  refine ⟨?_, hne _ (by decide), hne _ (by decide), hne _ (by decide), hne _ (by decide),
    hne _ (by decide), hne _ (by decide), hne _ (by decide), hne _ (by decide)⟩
  simp [jsonWsChar]
  and_intros <;> exact hne _ (by decide)

theorem natDigits_cons (n : Nat) : ∃ d t, natDigits n = d :: t ∧ d.isDigit = true := by
  cases hnd : natDigits n with
  | nil => exact absurd hnd (natDigits_ne_nil n)
  | cons d t => exact ⟨d, t, rfl, natDigits_digits n d (by rw [hnd]; simp)⟩

theorem renderInt_head (i : Int) :
    ∃ c t, renderInt i = c :: t ∧ (c = '-' ∨ c.isDigit = true) := by
  rw [renderInt]
  by_cases h : i < 0
  · rw [if_pos h]
    exact ⟨'-', _, rfl, Or.inl rfl⟩
  · rw [if_neg h]
    obtain ⟨d, t, hcons, hd⟩ := natDigits_cons i.toNat
    exact ⟨d, t, hcons, Or.inr hd⟩

theorem renderJ_head (v : JValue) :
    ∃ c t, renderJ v = c :: t ∧ jsonWsChar c = false ∧ c ≠ ']' ∧ c ≠ '}' := by
  cases v with
  | jnull => exact ⟨'n', _, rfl, by decide⟩
  | jbool b =>
    cases b
    · exact ⟨'f', _, rfl, by decide⟩
    · exact ⟨'t', _, rfl, by decide⟩
  | jstr s => exact ⟨'"', _, rfl, by decide⟩
  | jarr a => exact ⟨'[', _, rfl, by decide⟩
  | jobj o => exact ⟨'{', _, rfl, by decide⟩
  | jnum i =>
    obtain ⟨c, t, hcons, hc⟩ := renderInt_head i
    refine ⟨c, t, hcons, ?_, ?_, ?_⟩
    · rcases hc with hc | hc
      · subst hc; decide
      · exact (digit_notspecial hc).1
    · rcases hc with hc | hc
      · subst hc; decide
      · exact (digit_notspecial hc).2.2.2.2.2.2.2.1
    · rcases hc with hc | hc
      · subst hc; decide
      · exact (digit_notspecial hc).2.2.2.2.2.2.2.2

theorem renderArr_eq (v : JValue) (tl : JArr) :
    renderArr (.cons v tl) = renderJ v ++ arrSep tl := by
  cases tl with
  | nil => simp [renderArr, arrSep]
  | cons w tl₂ => simp [renderArr, arrSep]

theorem renderObj_eq (k : Str) (v : JValue) (tl : JObj) :
    renderObj (.cons k v tl) = memberStr k v ++ objSep tl := by
  cases tl with
  | nil => simp [renderObj, objSep, memberStr]
  | cons k₂ w tl₂ => simp [renderObj, objSep, memberStr, List.append_assoc]

theorem arrSep_head_not_digit (tl : JArr) (rest : Str) :
    ∀ c, (arrSep tl ++ ']' :: rest).head? = some c → c.isDigit = false := by
  intro c hc
  cases tl with
  | nil => simp [arrSep] at hc; subst hc; decide
  | cons v tl₂ => simp [arrSep] at hc; subst hc; decide

theorem objSep_head_not_digit (tl : JObj) (rest : Str) :
    ∀ c, (objSep tl ++ '}' :: rest).head? = some c → c.isDigit = false := by
  intro c hc
  cases tl with
  | nil => simp [objSep] at hc; subst hc; decide
  | cons k v tl₂ => simp [objSep] at hc; subst hc; decide



theorem parseArrTail_cons_comma (f : Nat) (r : Str) :
    parseArrTail (f + 1) (',' :: r) =
      (parseValue f r).bind fun p =>
        (parseArrTail f p.2).map fun q => (JArr.cons p.1 q.1, q.2) := by
  rw [parseArrTail.eq_def]
  rfl

theorem parseObjTail_cons_comma (f : Nat) (r : Str) :
    parseObjTail (f + 1) (',' :: r) =
      (parseMember f r).bind fun p =>
        (parseObjTail f p.2).map fun q => (JObj.cons p.1.1 p.1.2 q.1, q.2) := by
  rw [parseObjTail.eq_def]
  rfl

set_option maxRecDepth 4000
set_option maxHeartbeats 1000000

mutual
theorem parseValue_renderJ (v : JValue) (rest : Str) (fuel : Nat)
    (hf : needV v ≤ fuel)
    (hrest : ∀ c, rest.head? = some c → c.isDigit = false) :
    parseValue fuel (renderJ v ++ rest) = some (v, rest) := by
  obtain ⟨f, rfl⟩ : ∃ f, fuel = f + 1 := ⟨fuel - 1, by have := needV_pos v; omega⟩
  cases v with
  | jnull =>
    rw [show renderJ JValue.jnull ++ rest = 'n' :: 'u' :: 'l' :: 'l' :: rest from rfl,
      parseValue.eq_def]
    simp [jsonWsChar, List.isPrefixOf, show str "ull" = ['u', 'l', 'l'] from rfl]
  | jbool b =>
    cases b with
    | true =>
      rw [show renderJ (JValue.jbool true) ++ rest = 't' :: 'r' :: 'u' :: 'e' :: rest from rfl,
        parseValue.eq_def]
      simp [jsonWsChar, List.isPrefixOf, show str "rue" = ['r', 'u', 'e'] from rfl]
    | false =>
      rw [show renderJ (JValue.jbool false) ++ rest
          = 'f' :: 'a' :: 'l' :: 's' :: 'e' :: rest from rfl, parseValue.eq_def]
      simp [jsonWsChar, List.isPrefixOf, show str "alse" = ['a', 'l', 's', 'e'] from rfl]
  | jstr s =>
    have hshape : renderJ (.jstr s) ++ rest = '"' :: (escJson s ++ ('"' :: rest)) := by
      simp [renderJ, List.append_assoc]
    rw [hshape, parseValue.eq_def]
    simp [jsonWsChar, parseStringBody_escJson]
  | jnum i =>
    obtain ⟨c, t, hcons, hc⟩ := renderInt_head i
    have hshape : renderJ (.jnum i) ++ rest = c :: (t ++ rest) := by
      simp [renderJ, hcons]
    have hrender : renderInt i ++ rest = c :: (t ++ rest) := by rw [hcons]; simp
    have hnum : parseNumber (c :: (t ++ rest)) = some (JValue.jnum i, rest) := by
      rw [← hrender]; exact parseNumber_renderInt i rest hrest
    rcases hc with hc | hc
    · subst hc
      rw [hshape, parseValue.eq_def]
      simp [jsonWsChar, hnum]
    · obtain ⟨hws, h1, h2, h3, h4, h5, h6, _, _⟩ := digit_notspecial hc
      rw [hshape, parseValue.eq_def]
      simp [List.dropWhile_cons, hws, h1, h2, h3, h4, h5, h6, hc, hnum]
  | jarr a =>
    have hshape : renderJ (.jarr a) ++ rest = '[' :: (renderArr a ++ (']' :: rest)) := by
      simp [renderJ, List.append_assoc]
    rw [hshape, parseValue.eq_def]
    have hdw : (renderArr a ++ (']' :: rest)).dropWhile jsonWsChar
        = renderArr a ++ (']' :: rest) := by
      cases a with
      | nil => simp [renderArr, jsonWsChar]
      | cons v tl =>
        obtain ⟨c, t, hcv, hws, _, _⟩ := renderJ_head v
        rw [renderArr_eq, hcv]
        simp [hws]
    simp [hdw, jsonWsChar]
    exact parseElems_renderArr a rest f (by simp [needV] at hf; omega)
  | jobj o =>
    have hshape : renderJ (.jobj o) ++ rest = '{' :: (renderObj o ++ ('}' :: rest)) := by
      simp [renderJ, List.append_assoc]
    rw [hshape, parseValue.eq_def]
    have hdw : (renderObj o ++ ('}' :: rest)).dropWhile jsonWsChar
        = renderObj o ++ ('}' :: rest) := by
      cases o with
      | nil => simp [renderObj, jsonWsChar]
      | cons k v tl =>
        rw [renderObj_eq]
        simp [memberStr, jsonWsChar]
    simp [hdw, jsonWsChar]
    exact parseMembers_renderObj o rest f (by simp [needV] at hf; omega)

theorem parseElems_renderArr (a : JArr) (rest : Str) (fuel : Nat) (hf : needA a ≤ fuel) :
    parseElems fuel (renderArr a ++ ']' :: rest) = some (JValue.jarr a, rest) := by
  obtain ⟨f, rfl⟩ : ∃ f, fuel = f + 1 := ⟨fuel - 1, by have := needA_pos a; omega⟩
  cases a with
  | nil =>
    rw [show renderArr JArr.nil ++ ']' :: rest = ']' :: rest from rfl, parseElems.eq_def]
    simp
  | cons v tl =>
    obtain ⟨c, t, hcv, hws, hne1, hne2⟩ := renderJ_head v
    have h1 : needV v ≤ f := by
      simp [needA] at hf
      have := le_max_left (needV v) (needA tl)
      omega
    have h2 : needA tl ≤ f := by
      simp [needA] at hf
      have := le_max_right (needV v) (needA tl)
      omega
    have hshape : renderArr (.cons v tl) ++ ']' :: rest
        = renderJ v ++ (arrSep tl ++ (']' :: rest)) := by
      rw [renderArr_eq, List.append_assoc]
    rw [hshape, parseElems.eq_def]
    simp [parseValue_renderJ v (arrSep tl ++ (']' :: rest)) f h1
        (arrSep_head_not_digit tl rest),
      parseArrTail_arrSep tl rest f h2]
    constructor
    · rw [hcv]
      simp [hne1]
    · rw [hcv]
      intro h
      simp at h

theorem parseArrTail_arrSep (tl : JArr) (rest : Str) (fuel : Nat) (hf : needA tl ≤ fuel) :
    parseArrTail fuel (arrSep tl ++ ']' :: rest) = some (tl, rest) := by
  obtain ⟨f, rfl⟩ : ∃ f, fuel = f + 1 := ⟨fuel - 1, by have := needA_pos tl; omega⟩
  cases tl with
  | nil =>
    rw [show arrSep JArr.nil ++ ']' :: rest = ']' :: rest from rfl, parseArrTail.eq_def]
    simp [jsonWsChar]
  | cons v tl₂ =>
    have h1 : needV v ≤ f := by
      simp [needA] at hf
      have := le_max_left (needV v) (needA tl₂)
      omega
    have h2 : needA tl₂ ≤ f := by
      simp [needA] at hf
      have := le_max_right (needV v) (needA tl₂)
      omega
    have hshape : arrSep (.cons v tl₂) ++ ']' :: rest
        = ',' :: (renderJ v ++ (arrSep tl₂ ++ (']' :: rest))) := by
      rw [show arrSep (JArr.cons v tl₂) = ',' :: renderArr (.cons v tl₂) from rfl,
        renderArr_eq]
      simp [List.append_assoc]
    rw [hshape, parseArrTail_cons_comma,
      parseValue_renderJ v (arrSep tl₂ ++ (']' :: rest)) f h1
        (arrSep_head_not_digit tl₂ rest)]
    show (parseArrTail f (arrSep tl₂ ++ (']' :: rest))).map
        (fun q => (JArr.cons v q.1, q.2)) = some (JArr.cons v tl₂, rest)
    rw [parseArrTail_arrSep tl₂ rest f h2]
    rfl

theorem parseMember_memberStr (k : Str) (v : JValue) (after : Str) (fuel : Nat)
    (hf : 1 + needV v ≤ fuel)
    (hafter : ∀ c, after.head? = some c → c.isDigit = false) :
    parseMember fuel (memberStr k v ++ after) = some ((k, v), after) := by
  obtain ⟨f, rfl⟩ : ∃ f, fuel = f + 1 := ⟨fuel - 1, by omega⟩
  have hshape : memberStr k v ++ after
      = '"' :: (escJson k ++ ('"' :: (':' :: (renderJ v ++ after)))) := by
    simp [memberStr, List.append_assoc]
  rw [hshape, parseMember.eq_def]
  simp [jsonWsChar, parseStringBody_escJson,
    parseValue_renderJ v after f (by omega) hafter]

theorem parseMembers_renderObj (o : JObj) (rest : Str) (fuel : Nat) (hf : needO o ≤ fuel) :
    parseMembers fuel (renderObj o ++ '}' :: rest) = some (JValue.jobj o, rest) := by
  obtain ⟨f, rfl⟩ : ∃ f, fuel = f + 1 := ⟨fuel - 1, by have := needO_pos o; omega⟩
  cases o with
  | nil =>
    rw [show renderObj JObj.nil ++ '}' :: rest = '}' :: rest from rfl, parseMembers.eq_def]
    simp
  | cons k v tl =>
    have h1 : 1 + needV v ≤ f := by
      simp [needO] at hf
      have := le_max_left (1 + needV v) (needO tl)
      omega
    have h2 : needO tl ≤ f := by
      simp [needO] at hf
      have := le_max_right (1 + needV v) (needO tl)
      omega
    have hshape : renderObj (.cons k v tl) ++ '}' :: rest
        = memberStr k v ++ (objSep tl ++ ('}' :: rest)) := by
      rw [renderObj_eq, List.append_assoc]
    rw [hshape, parseMembers.eq_def]
    simp [parseMember_memberStr k v (objSep tl ++ ('}' :: rest)) f h1
        (objSep_head_not_digit tl rest),
      parseObjTail_objSep tl rest f h2]
    constructor
    · rw [show (memberStr k v).head? = some '"' from rfl]
      simp
    · intro h
      rw [show memberStr k v = '"' :: (escJson k ++ ['"', ':'] ++ renderJ v) from by
        simp [memberStr, List.append_assoc]] at h
      simp at h

theorem parseObjTail_objSep (tl : JObj) (rest : Str) (fuel : Nat) (hf : needO tl ≤ fuel) :
    parseObjTail fuel (objSep tl ++ '}' :: rest) = some (tl, rest) := by
  obtain ⟨f, rfl⟩ : ∃ f, fuel = f + 1 := ⟨fuel - 1, by have := needO_pos tl; omega⟩
  cases tl with
  | nil =>
    rw [show objSep JObj.nil ++ '}' :: rest = '}' :: rest from rfl, parseObjTail.eq_def]
    simp [jsonWsChar]
  | cons k v tl₂ =>
    have h1 : 1 + needV v ≤ f := by
      simp [needO] at hf
      have := le_max_left (1 + needV v) (needO tl₂)
      omega
    have h2 : needO tl₂ ≤ f := by
      simp [needO] at hf
      have := le_max_right (1 + needV v) (needO tl₂)
      omega
    have hshape : objSep (.cons k v tl₂) ++ '}' :: rest
        = ',' :: (memberStr k v ++ (objSep tl₂ ++ ('}' :: rest))) := by
      rw [show objSep (JObj.cons k v tl₂) = ',' :: renderObj (.cons k v tl₂) from rfl,
        renderObj_eq]
      simp [List.append_assoc]
    rw [hshape, parseObjTail_cons_comma,
      parseMember_memberStr k v (objSep tl₂ ++ ('}' :: rest)) f h1
        (objSep_head_not_digit tl₂ rest)]
    show (parseObjTail f (objSep tl₂ ++ ('}' :: rest))).map
        (fun q => (JObj.cons k v q.1, q.2)) = some (JObj.cons k v tl₂, rest)
    rw [parseObjTail_objSep tl₂ rest f h2]
    rfl
end



theorem needA_cons (v : JValue) (tl : JArr) :
    needA (.cons v tl) = 1 + max (needV v) (needA tl) := by
  simp [needA]

theorem needO_cons (k : Str) (v : JValue) (tl : JObj) :
    needO (.cons k v tl) = 1 + max (1 + needV v) (needO tl) := by
  simp [needO]

mutual
theorem needV_le (v : JValue) : needV v ≤ (renderJ v).length + 1 := by
  cases v with
  | jnull => simp [needV]
  | jbool b => simp [needV]
  | jnum i => simp [needV]
  | jstr s => simp [needV]
  | jarr a =>
    have h := needA_le a
    have hlen : (renderJ (.jarr a)).length = (renderArr a).length + 2 := by
      simp [renderJ]
    simp only [needV]
    omega
  | jobj o =>
    have h := needO_le o
    have hlen : (renderJ (.jobj o)).length = (renderObj o).length + 2 := by
      simp [renderJ]
    simp only [needV]
    omega

theorem needA_le (a : JArr) : needA a ≤ (renderArr a).length + 2 := by
  cases a with
  | nil => simp [needA]
  | cons v tl =>
    rw [needA_cons]
    have h1 := needV_le v
    cases tl with
    | nil =>
      have e1 : renderArr (JArr.cons v JArr.nil) = renderJ v := by simp [renderArr]
      have e2 : needA JArr.nil = 1 := by simp [needA]
      rw [e1, e2]
      omega
    | cons w tl₃ =>
      have h2 := needA_le (JArr.cons w tl₃)
      have e1 : (renderArr (JArr.cons v (JArr.cons w tl₃))).length
          = (renderJ v).length + 1 + (renderArr (JArr.cons w tl₃)).length := by
        simp [renderArr]
        omega
      omega

theorem needO_le (o : JObj) : needO o ≤ (renderObj o).length + 2 := by
  cases o with
  | nil => simp [needO]
  | cons k v tl =>
    rw [needO_cons]
    have h1 := needV_le v
    cases tl with
    | nil =>
      have e1 : (renderObj (JObj.cons k v JObj.nil)).length
          = (escJson k).length + 3 + (renderJ v).length := by
        simp [renderObj]
        omega
      have e2 : needO JObj.nil = 1 := by simp [needO]
      rw [e2]
      omega
    | cons k₂ w tl₃ =>
      have h2 := needO_le (JObj.cons k₂ w tl₃)
      have e1 : (renderObj (JObj.cons k v (JObj.cons k₂ w tl₃))).length
          = (escJson k).length + 3 + (renderJ v).length + 1
            + (renderObj (JObj.cons k₂ w tl₃)).length := by
        simp [renderObj]
        omega
      omega
end

/-- Round-trip of the JSON model: parsing a stringified value restores the
value (the basis for the persistent cache reading back what it wrote). -/
theorem jsonParse_renderJ (v : JValue) : jsonParse (renderJ v) = some v := by
  unfold jsonParse
  have h := parseValue_renderJ v [] ((renderJ v).length + 2)
    (by have := needV_le v; omega) (by intro c hc; simp at hc)
  rw [show renderJ v ++ ([] : Str) = renderJ v from by simp] at h
  rw [h]
  rfl


theorem mapLookup_append_of_none {α : Type} (m l₂ : List (Str × α)) (k : Str)
    (h : mapLookup m k = none) : mapLookup (m ++ l₂) k = mapLookup l₂ k := by
  induction m with
  | nil => rfl
  | cons hd tl ih =>
    obtain ⟨k', v⟩ := hd
    by_cases hk : k' = k
    · simp [mapLookup, hk] at h
    · simp only [List.cons_append, mapLookup, if_neg hk] at h ⊢
      exact ih h

theorem mapLookup_map_replace {α : Type} (m : List (Str × α)) (k : Str) (e : α)
    (h : (mapLookup m k).isSome) :
    mapLookup (m.map (fun kv => if kv.1 = k then (k, e) else kv)) k = some e := by
  induction m with
  | nil => simp [mapLookup] at h
  | cons hd tl ih =>
    obtain ⟨k', v⟩ := hd
    by_cases hk : k' = k
    · subst hk
      have hf : (if (k', v).1 = k' then (k', e) else (k', v)) = ((k', e) : Str × α) :=
        if_pos rfl
      rw [List.map_cons, hf]
      simp only [mapLookup]
      simp
    · have h' : (mapLookup tl k).isSome := by
        rw [mapLookup] at h
        rwa [if_neg hk] at h
      have hf : (if (k', v).1 = k then (k, e) else (k', v)) = ((k', v) : Str × α) :=
        if_neg hk
      rw [List.map_cons, hf]
      simp only [mapLookup]
      rw [if_neg hk]
      exact ih h'

theorem mapLookup_mapSet_self {α : Type} (m : List (Str × α)) (k : Str) (e : α) :
    mapLookup (mapSet m k e) k = some e := by
  unfold mapSet
  by_cases h : (mapLookup m k).isSome
  · rw [if_pos h]
    exact mapLookup_map_replace m k e h
  · rw [if_neg h]
    rw [mapLookup_append_of_none m _ k (by revert h; cases mapLookup m k <;> simp)]
    simp [mapLookup]

theorem mapLookup_mapDelete_self {α : Type} (m : List (Str × α)) (k : Str) :
    mapLookup (mapDelete m k) k = none := by
  induction m with
  | nil => rfl
  | cons hd tl ih =>
    obtain ⟨k', v⟩ := hd
    by_cases hk : k' = k
    · simpa [mapDelete, List.filter_cons, hk] using ih
    · simpa [mapDelete, List.filter_cons, hk, mapLookup] using ih

theorem joinStrs_cons (x : Str) (xs : List Str) : joinStrs (x :: xs) = x ++ joinStrs xs := rfl

theorem joinStrs_append (xs ys : List Str) :
    joinStrs (xs ++ ys) = joinStrs xs ++ joinStrs ys := by
  induction xs with
  | nil => rfl
  | cons h t ih => simp [joinStrs_cons, ih, List.append_assoc]

theorem foldr_append_init (l : List Str) (d : Str) :
    List.foldr (fun a b => a ++ b) [] l ++ d = List.foldr (fun a b => a ++ b) d l := by
  induction l with
  | nil => rfl
  | cons x xs ih => simp [List.foldr_cons, List.append_assoc, ih]

theorem processLine_inv (st : SSEState) (line : Str)
    (h : st.content = joinStrs st.emitted) :
    (processLine st line).content = joinStrs (processLine st line).emitted := by
  unfold processLine
  split
  · exact h
  · split
    · exact h
    · split
      · split
        · simp [ssePush, joinStrs_append, joinStrs_cons, joinStrs, h, foldr_append_init]
        · exact h
      · simp [ssePush, joinStrs_append, joinStrs_cons, joinStrs, h, foldr_append_init]

theorem processLine_skip_or_push (st : SSEState) (line : Str) :
    processLine st line = st ∨ ∃ d, processLine st line = ssePush st d := by
  unfold processLine
  split
  · exact Or.inl rfl
  · split
    · exact Or.inl rfl
    · split
      · split
        · exact Or.inr ⟨_, rfl⟩
        · exact Or.inl rfl
      · exact Or.inr ⟨_, rfl⟩

theorem foldl_processLine_inv (lines : List Str) (st : SSEState)
    (h : st.content = joinStrs st.emitted) :
    (lines.foldl processLine st).content = joinStrs (lines.foldl processLine st).emitted := by
  induction lines generalizing st with
  | nil => exact h
  | cons l ls ih => exact ih _ (processLine_inv st l h)

theorem runStream_content_eq (chunks : List Str) :
    (runStream chunks).content = joinStrs (runStream chunks).emitted := by
  unfold runStream
  induction chunks using List.reverseRecOn with
  | nil => rfl
  | append_singleton cs c ih =>
    rw [List.foldl_append]
    exact foldl_processLine_inv _ _ ih

/-!
Claim C1 — stream reassembly. The source read loop splits each chunk on
newlines independently and keeps no carry-over line buffer, so a `data:`
line split across two chunks is processed as two broken lines rather than
one: the spec's reassembly guarantee does not hold.
-/

/-- Claim C1: evaluation of the read loop at a failing input. The same
logical bytes `data: hello\n` delivered as one chunk emit the delta
`hello`, but delivered split mid-line as `data: he` then `llo\n` they emit
only `he` (the fragment `llo` is dropped): the delta sequences differ, so
the claimed split-invariance fails — no line buffer is carried over between
chunks. -/
theorem sse_split_chunk_divergence :
    str "data: he" ++ str "llo\n" = str "data: hello\n"
  ∧ (runStream [str "data: hello\n"]).emitted = [str "hello"]
  ∧ (runStream [str "data: he", str "llo\n"]).emitted = [str "he"] := by
  exact ⟨rfl, rfl, rfl⟩

/-!
Claim C2 — sentinel termination. The source handles a `[DONE]` payload with
`continue`: the sentinel line itself emits nothing, but the loop keeps
reading, so deltas occurring after the sentinel are still emitted.
-/

/-- Claim C2 counterexample: a stream with one delta event before
`data: [DONE]` and one after emits two deltas (`a` then `b`), not exactly
one — a delta is emitted after the sentinel is observed. -/
theorem sse_delta_after_sentinel :
    (runStream [str "data: a\n\ndata: [DONE]\n\ndata: b\n\n"]).emitted = [str "a", str "b"]
  ∧ (runStream [str "data: a\n\ndata: [DONE]\n\ndata: b\n\n"]).emitted.length = 2 := by
  exact ⟨rfl, rfl⟩

/-!
Claim C4 — persistent-cache clear. `localStorageCache.set` stores under the
caller's key verbatim (no namespace prefix is added), while `clear` removes
exactly the keys with the literal prefix `smartnotes-`; so entries created
by `set` under unprefixed keys survive `clear`.
-/

/-- Claim C4 counterexample: an entry created by the subsystem's own
`set` under key `foo` is untouched by `clear` — `clear()` does not remove
every entry created through `set`. -/
theorem ls_clear_keeps_unprefixed_set :
    lsClear (lsSet [] (str "foo") (JValue.jstr (str "x")) 1000 0)
      = lsSet [] (str "foo") (JValue.jstr (str "x")) 1000 0
  ∧ (storeGetItem (lsClear (lsSet [] (str "foo") (JValue.jstr (str "x")) 1000 0))
      (str "foo")).isSome = true := by
  exact ⟨rfl, rfl⟩

/-- Claim C4 as amended: `clear()` removes exactly the keys starting with
the namespace prefix `smartnotes-` — after `clear`, lookup of any key is
`none` when the key carries the prefix and unchanged otherwise; since `set`
stores under the caller's raw key, entries created by `set` are removed
exactly when their key carries the prefix. -/
theorem mapLookup_filter {α : Type} (p : Str → Bool) (m : List (Str × α)) (k : Str) :
    mapLookup (m.filter (fun kv => p kv.1)) k = if p k then mapLookup m k else none := by
  induction m with
  | nil => cases hp : p k <;> simp [mapLookup]
  | cons hd tl ih =>
    obtain ⟨k', v⟩ := hd
    by_cases hk : k' = k
    · subst hk
      cases hp : p k' <;> simp [List.filter_cons, hp, mapLookup, ih]
    · cases hp : p k' <;> simp [List.filter_cons, hp, mapLookup, hk, ih]

theorem ls_clear_removes_exactly_prefix (s : Store) (k : Str) :
    storeGetItem (lsClear s) k =
      if (str "smartnotes-").isPrefixOf k then none else storeGetItem s k := by
  have h := mapLookup_filter (fun key => !(str "smartnotes-").isPrefixOf key) s k
  simp only [storeGetItem, lsClear]
  rw [h]
  cases hb : (str "smartnotes-").isPrefixOf k <;> simp [hb]

/-!
Claim C5 — premature termination. A rejected read reaches the catch block
(error notice appended, accumulated content kept), but a clean close before
the sentinel just ends the loop: the caller cannot distinguish it from
normal completion.
-/

/-- Claim C5 counterexample: a stream that closes cleanly before `[DONE]`
produces exactly the same caller-visible outcome (content `a`, no error
notice) as a stream that completes normally with the sentinel — an abrupt
pre-sentinel close is not distinguishable from normal completion. -/
theorem sse_clean_close_like_completion :
    runSession [str "data: a\n\n"] EndKind.clean = ⟨str "a", false⟩
  ∧ runSession [str "data: a\n\n", str "data: [DONE]\n\n"] EndKind.clean = ⟨str "a", false⟩ := by
  exact ⟨rfl, rfl⟩

/-- Claim C5 as amended: a read failure (rejected `read()`) appends the
error notice while the partial content — exactly the concatenation of the
emitted deltas — is kept, whereas a clean close (with or without the
sentinel having appeared) reports no error and is therefore not
distinguishable from normal completion by the caller. -/
theorem sse_failed_close_reports_error (chunks : List Str) :
    (runSession chunks EndKind.failed).errorNotice = true
  ∧ (runSession chunks EndKind.failed).content = joinStrs (runStream chunks).emitted
  ∧ (runSession chunks EndKind.clean).errorNotice = false
  ∧ (runSession chunks EndKind.clean).content = (runSession chunks EndKind.failed).content := by
  refine ⟨rfl, ?_, rfl, rfl⟩
  exact runStream_content_eq chunks

/-!
Claim C6 — stale in-flight fetches. The effect body of `useApiCache`
starts a producer call with no cancellation token and no active-key check
in the `.then` handler, so a fetch issued for an abandoned key overwrites
`data` when it resolves.
-/

/-- Claim C6 counterexample: key `a` misses and starts a fetch, the key
changes to `b` (second effect run, second fetch), the fetch for `b`
resolves (`data = two`), then the stale fetch for `a` resolves — and
overwrites `data` with `one`, the result for the abandoned key. -/
theorem hook_stale_fetch_overwrites_trace :
    (hookStep (hookStep (hookStep (hookInit [])
        (HookEvent.effectRun (str "a") true 1000 0))
        (HookEvent.effectRun (str "b") true 1000 1))
        (HookEvent.fetchOk 1 (JValue.jstr (str "two")) 2)).data
      = some (JValue.jstr (str "two"))
  ∧ (hookStep (hookStep (hookStep (hookStep (hookInit [])
        (HookEvent.effectRun (str "a") true 1000 0))
        (HookEvent.effectRun (str "b") true 1000 1))
        (HookEvent.fetchOk 1 (JValue.jstr (str "two")) 2))
        (HookEvent.fetchOk 0 (JValue.jstr (str "one")) 3)).data
      = some (JValue.jstr (str "one")) := by
  exact ⟨rfl, rfl⟩

/-- Claim C6 as amended: the hook has no is-this-still-the-active-key
guard — whenever any in-flight producer call resolves, its result is
stored into `data` unconditionally, so a stale fetch for an abandoned key
does overwrite the currently displayed data. -/
theorem hook_fetch_resolution_sets_data (s : HookState) (i : Nat) (r : JValue) (now : Nat)
    (h : (s.pending[i]?).isSome = true) :
    (hookStep s (HookEvent.fetchOk i r now)).data = some r := by
  cases hg : s.pending[i]? with
  | none => rw [hg] at h; simp at h
  | some req => simp [hookStep, hg]

/-- Witness for the amended claim C6 at a concrete state with one pending
fetch. -/
theorem hook_fetch_resolution_sets_data_witness :
    ((⟨none, true, none, [], [⟨str "k", 3⟩]⟩ : HookState).pending[0]?).isSome = true
  ∧ (hookStep (⟨none, true, none, [], [⟨str "k", 3⟩]⟩ : HookState)
      (HookEvent.fetchOk 0 (JValue.jnum 7) 9)).data = some (JValue.jnum 7) := by
  exact ⟨rfl, hook_fetch_resolution_sets_data _ 0 (JValue.jnum 7) 9 rfl⟩

/-!
Claim C8 — list grouping in the block pass. The source collects a run of
one or more bullet-pattern lines, so a single isolated bullet line already
becomes an unordered list — not a paragraph.
-/

/-- Claim C8 counterexample: the single bullet line `- hi` is rendered as
an unordered list with one item, not grouped into a paragraph. -/
theorem render_single_bullet_list :
    renderChatHtml "- hi" = "<ul class=\"list-disc pl-5\"><li>hi</li></ul>" := by
  rfl

/-!
Claim C9 — deterministic rendering. The embedded renderer is a pure
function of the input buffer (the source reads no mutable state), so any
number of invocations on the same buffer produce byte-identical output.
-/

/-- Claim C9: rendering the same fully-accumulated buffer any number of
times yields the identical HTML every time — the output depends only on
the input string, not on invocation count or prior renders. -/
theorem render_deterministic (s : String) (n : Nat) :
    (List.replicate n s).map renderChatHtml = List.replicate n (renderChatHtml s) := by
  simp

/-!
Claim C10 — truthiness probe of the cache. The effect body tests the cache
lookup result with `if (cached)`, so an unexpired entry holding a falsy
value is treated as a miss: `data` is not populated from the cache and the
producer is invoked again although the entry is still present.
-/

/-- Claim C10: with an unexpired cache entry whose stored value is falsy,
an enabled effect run leaves `data` unchanged (not populated from the
cache), sets `loading`, starts a new producer call, and leaves the valid
entry in the cache. -/
theorem hook_falsy_cache_hit_refetches (s : HookState) (k : Str) (v : JValue)
    (e ttl now : Nat)
    (hl : mapLookup s.cache k = some ⟨v, e⟩) (hexp : ¬ now > e) (hf : truthy v = false) :
    (hookStep s (HookEvent.effectRun k true ttl now)).data = s.data
  ∧ (hookStep s (HookEvent.effectRun k true ttl now)).loading = true
  ∧ (hookStep s (HookEvent.effectRun k true ttl now)).pending = s.pending ++ [⟨k, ttl⟩]
  ∧ (hookStep s (HookEvent.effectRun k true ttl now)).cache = s.cache := by
  unfold hookStep ClientCache.get
  simp [hl, if_neg hexp, hf]

/-- Witness for claim C10: a concrete unexpired entry storing the falsy
value `0`. -/
theorem hook_falsy_cache_hit_refetches_witness :
    mapLookup (hookInit [(str "k", ⟨JValue.jnum 0, 100⟩)]).cache (str "k")
      = some ⟨JValue.jnum 0, 100⟩
  ∧ ¬ (50 : Nat) > 100
  ∧ truthy (JValue.jnum 0) = false
  ∧ (hookStep (hookInit [(str "k", ⟨JValue.jnum 0, 100⟩)])
      (HookEvent.effectRun (str "k") true 1000 50)).data
      = (hookInit [(str "k", ⟨JValue.jnum 0, 100⟩)]).data
  ∧ (hookStep (hookInit [(str "k", ⟨JValue.jnum 0, 100⟩)])
      (HookEvent.effectRun (str "k") true 1000 50)).loading = true := by
  refine ⟨rfl, by omega, rfl, ?_, ?_⟩
  · exact (hook_falsy_cache_hit_refetches (hookInit [(str "k", ⟨JValue.jnum 0, 100⟩)])
      (str "k") (JValue.jnum 0) 100 1000 50 rfl (by omega) rfl).1
  · exact (hook_falsy_cache_hit_refetches (hookInit [(str "k", ⟨JValue.jnum 0, 100⟩)])
      (str "k") (JValue.jnum 0) 100 1000 50 rfl (by omega) rfl).2.1

theorem lsItem_expires (v : JValue) (e : Nat) :
    jGet (lsItem v e) (str "expires") = some (JValue.jnum (e : Int)) := by
  show objLookup _ _ = _
  rw [objLookup, if_neg (by decide), objLookup, if_pos rfl]

theorem lsItem_data (v : JValue) (e : Nat) :
    jGet (lsItem v e) (str "data") = some v := by
  show objLookup _ _ = _
  rw [objLookup, if_pos rfl]

/-!
Claim C3 — TTL expiry for both caches. Reads strictly before the expiry
return the stored value; reads strictly after it behave as a miss, remove
the stale entry (lazy expiry) and make a subsequent `has` return `false`.
-/

/-- Claim C3: for every key, value and ttl, in both the memory cache and
the persistent cache, a `get` strictly before `now₀ + ttl` returns the
stored value, and a `get` strictly after it returns `null`, removes the
stale entry from the store, and makes a subsequent `has` return `false`. -/
theorem ttl_expiry_both_caches (m : CacheMap) (s : Store) (k : Str) (v : JValue)
    (ttl now₀ now₁ : Nat) :
    (now₁ < now₀ + ttl →
        (ClientCache.get (ClientCache.set m k v ttl now₀) now₁ k).1 = some v
      ∧ (lsGet (lsSet s k v ttl now₀) now₁ k).1 = some v)
  ∧ (now₁ > now₀ + ttl →
        (ClientCache.get (ClientCache.set m k v ttl now₀) now₁ k).1 = none
      ∧ (lsGet (lsSet s k v ttl now₀) now₁ k).1 = none
      ∧ mapLookup (ClientCache.get (ClientCache.set m k v ttl now₀) now₁ k).2 k = none
      ∧ storeGetItem (lsGet (lsSet s k v ttl now₀) now₁ k).2 k = none
      ∧ (ClientCache.has (ClientCache.get (ClientCache.set m k v ttl now₀) now₁ k).2 now₁ k).1
          = false
      ∧ (lsHas (lsGet (lsSet s k v ttl now₀) now₁ k).2 now₁ k).1 = false) := by
  have hmem : mapLookup (ClientCache.set m k v ttl now₀) k = some ⟨v, now₀ + ttl⟩ := by
    show mapLookup (mapSet m k _) k = _
    exact mapLookup_mapSet_self m k _
  have hstore : storeGetItem (lsSet s k v ttl now₀) k
      = some (renderJ (lsItem v (now₀ + ttl))) := by
    show mapLookup (mapSet s k _) k = _
    exact mapLookup_mapSet_self s k _
  have hexpi : ∀ n : Nat, expiredAt n (lsItem v (now₀ + ttl)) = decide (n > now₀ + ttl) := by
    intro n
    simp [expiredAt, lsItem_expires]
    omega
  constructor
  · intro hlt
    constructor
    · simp only [ClientCache.get, hmem]
      rw [if_neg (by omega)]
    · simp only [lsGet, hstore, jsonParse_renderJ]
      rw [hexpi now₁, if_neg (by simp; omega)]
      exact lsItem_data v (now₀ + ttl)
  · intro hgt
    have hmemget : ClientCache.get (ClientCache.set m k v ttl now₀) now₁ k
        = (none, mapDelete (ClientCache.set m k v ttl now₀) k) := by
      simp only [ClientCache.get, hmem]
      rw [if_pos (by omega)]
    have hlsget : lsGet (lsSet s k v ttl now₀) now₁ k
        = (none, storeRemoveItem (lsSet s k v ttl now₀) k) := by
      simp only [lsGet, hstore, jsonParse_renderJ]
      rw [hexpi now₁, if_pos (by simp; omega)]
    refine ⟨by rw [hmemget], by rw [hlsget], ?_, ?_, ?_, ?_⟩
    · rw [hmemget]
      exact mapLookup_mapDelete_self _ k
    · rw [hlsget]
      exact mapLookup_mapDelete_self _ k
    · rw [hmemget]
      simp only [ClientCache.has, mapLookup_mapDelete_self]
    · rw [hlsget]
      show (lsHas (mapDelete _ k) now₁ k).1 = false
      simp only [lsHas]
      rw [show storeGetItem (mapDelete (lsSet s k v ttl now₀) k) k = none from
        mapLookup_mapDelete_self _ k]

/-- Witness for claim C3 at concrete inputs: key `k`, value `"v"`,
ttl 5, written at time 0, read fresh at time 3 and stale at time 6. -/
theorem ttl_expiry_both_caches_witness :
    (3 : Nat) < 0 + 5
  ∧ (6 : Nat) > 0 + 5
  ∧ (ClientCache.get (ClientCache.set [] (str "k") (JValue.jstr (str "v")) 5 0) 3
      (str "k")).1 = some (JValue.jstr (str "v"))
  ∧ (lsGet (lsSet [] (str "k") (JValue.jstr (str "v")) 5 0) 3 (str "k")).1
      = some (JValue.jstr (str "v"))
  ∧ (ClientCache.get (ClientCache.set [] (str "k") (JValue.jstr (str "v")) 5 0) 6
      (str "k")).1 = none
  ∧ (lsGet (lsSet [] (str "k") (JValue.jstr (str "v")) 5 0) 6 (str "k")).1 = none := by
  refine ⟨by omega, by omega,
    ((ttl_expiry_both_caches [] [] (str "k") (JValue.jstr (str "v")) 5 0 3).1 (by omega)).1,
    ((ttl_expiry_both_caches [] [] (str "k") (JValue.jstr (str "v")) 5 0 3).1 (by omega)).2,
    ((ttl_expiry_both_caches [] [] (str "k") (JValue.jstr (str "v")) 5 0 6).2 (by omega)).1,
    ((ttl_expiry_both_caches [] [] (str "k") (JValue.jstr (str "v")) 5 0 6).2 (by omega)).2.1⟩

theorem isPrefixOf_append_self (l r : Str) : l.isPrefixOf (l ++ r) = true := by
  induction l with
  | nil => cases r <;> rfl
  | cons c cs ih => simp [List.isPrefixOf, ih]

theorem trimR_prefix (q : Str) : trimR q <+: q := by
  have hs : q.reverse.dropWhile jsWs <:+ q.reverse := List.dropWhile_suffix jsWs
  have h2 := (List.reverse_prefix).mpr hs
  rw [List.reverse_reverse] at h2
  exact h2

theorem trimL_of_jsTrim {p : Str} (h : jsTrim p = p) : trimL p = p := by
  have hsuf : trimL p <:+ p := List.dropWhile_suffix jsWs
  have hpre : p <+: trimL p := by
    have := trimR_prefix (trimL p)
    rwa [show trimR (trimL p) = jsTrim p from rfl, h] at this
  exact (hpre.eq_of_length (Nat.le_antisymm hpre.length_le hsuf.length_le)).symm

theorem trimR_of_jsTrim {p : Str} (h : jsTrim p = p) : trimR p = p := by
  have h1 := trimL_of_jsTrim h
  have h2 : jsTrim p = trimR (trimL p) := rfl
  rw [h2, h1] at h
  exact h

theorem rev_head_not_ws_of_trimR {p : Str} (h : trimR p = p) {c : Char}
    (hc : p.reverse.head? = some c) : jsWs c = false := by
  have hrev : p.reverse.dropWhile jsWs = p.reverse := by
    have h2 := congrArg List.reverse h
    rwa [show (trimR p).reverse = p.reverse.dropWhile jsWs from by simp [trimR]] at h2
  by_cases hws : jsWs c = true
  · exfalso
    cases hp : p.reverse with
    | nil => rw [hp] at hc; cases hc
    | cons d t =>
      rw [hp] at hc hrev
      have hd : d = c := by simpa using hc
      rw [List.dropWhile_cons, hd, if_pos hws] at hrev
      have hlen : (t.dropWhile jsWs).length ≤ t.length := (List.dropWhile_suffix jsWs).length_le
      have h3 := congrArg List.length hrev
      simp at h3
      omega
  · simpa using hws

theorem trimR_append {a p : Str} (hne : p ≠ []) (htr : trimR p = p) :
    trimR (a ++ p) = a ++ p := by
  obtain ⟨c, t, hrev⟩ : ∃ c t, p.reverse = c :: t := by
    cases hp : p.reverse with
    | nil =>
      have : p = [] := by simpa using congrArg List.reverse hp
      exact absurd this hne
    | cons c t => exact ⟨c, t, rfl⟩
  have hc : jsWs c = false := rev_head_not_ws_of_trimR htr (by rw [hrev]; rfl)
  show ((a ++ p).reverse.dropWhile jsWs).reverse = a ++ p
  rw [List.reverse_append, hrev, List.cons_append, List.dropWhile_cons, if_neg (by simp [hc]),
    ← List.cons_append, ← hrev]
  rw [← List.reverse_append, List.reverse_reverse]

theorem jsTrim_dataLine {p : Str} (hne : p ≠ []) (htrim : jsTrim p = p) :
    jsTrim (str "data: " ++ p) = str "data: " ++ p := by
  have h1 : trimL (str "data: " ++ p) = str "data: " ++ p := by
    have h0 : str "data: " ++ p = 'd' :: (str "ata: " ++ p) := rfl
    rw [trimL, h0, List.dropWhile_cons, if_neg (by decide)]
  show trimR (trimL (str "data: " ++ p)) = str "data: " ++ p
  rw [h1]
  exact trimR_append hne (trimR_of_jsTrim htrim)

theorem jsTrim_space_cons {p : Str} (htrim : jsTrim p = p) : jsTrim (' ' :: p) = p := by
  have h1 : trimL (' ' :: p) = trimL p := by
    show List.dropWhile jsWs (' ' :: p) = _
    rw [List.dropWhile_cons, if_pos (by decide)]
    rfl
  show trimR (trimL (' ' :: p)) = p
  rw [h1, trimL_of_jsTrim htrim]
  exact trimR_of_jsTrim htrim

theorem processLine_dataLine (st : SSEState) {p : Str}
    (hne : p ≠ []) (htrim : jsTrim p = p) (hdone : p ≠ str "[DONE]")
    (hparse : jsonParse p = none) :
    processLine st (str "data: " ++ p) = ssePush st p := by
  unfold processLine
  rw [jsTrim_dataLine hne htrim]
  rw [show str "data: " ++ p = str "data:" ++ (' ' :: p) from rfl]
  rw [isPrefixOf_append_self]
  rw [show (str "data:" ++ (' ' :: p)).drop 5 = ' ' :: p from by
    rw [List.drop_left' (by rfl)]]
  rw [jsTrim_space_cons htrim]
  rw [if_neg hdone, hparse]
  rfl

theorem processLine_empty (st : SSEState) : processLine st [] = st := rfl

theorem splitNl_append_nl {a : Str} (b : Str) (h : '\n' ∉ a) :
    splitNl (a ++ '\n' :: b) = a :: splitNl b := by
  induction a with
  | nil => rfl
  | cons c cs ih =>
    have hc : c ≠ '\n' := by intro he; exact h (by simp [he])
    have hcs : '\n' ∉ cs := fun hm => h (by simp [hm])
    simp only [List.cons_append, splitNl, List.append_eq]
    rw [if_neg hc, ih hcs]

theorem foldl_ssePush_emitted (ps : List Str) (st : SSEState) :
    (ps.foldl ssePush st).emitted = st.emitted ++ ps := by
  induction ps generalizing st with
  | nil => simp
  | cons p ps ih => simp [ih, ssePush]

theorem fold_events (ps : List Str) (R : Str) (st : SSEState)
    (h : ∀ p ∈ ps, p ≠ [] ∧ jsTrim p = p ∧ '\n' ∉ p ∧ p ≠ str "[DONE]" ∧ jsonParse p = none) :
    (splitNl (joinStrs (ps.map (fun p => str "data: " ++ (p ++ str "\n\n"))) ++ R)).foldl
        processLine st
      = (splitNl R).foldl processLine (ps.foldl ssePush st) := by
  induction ps generalizing st with
  | nil => simp [joinStrs]
  | cons p ps ih =>
    obtain ⟨hne, htrim, hnl, hdone, hparse⟩ := h p (by simp)
    have hshape : joinStrs (((p :: ps).map (fun p => str "data: " ++ (p ++ str "\n\n")))) ++ R
        = (str "data: " ++ p) ++ '\n'
          :: ('\n' :: (joinStrs (ps.map (fun p => str "data: " ++ (p ++ str "\n\n"))) ++ R)) := by
      simp [joinStrs_cons, List.append_assoc]
      rfl
    have hnl₂ : '\n' ∉ str "data: " ++ p := by
      intro hm
      rw [List.mem_append] at hm
      rcases hm with hm | hm
      · simp [str] at hm
      · exact hnl hm
    rw [hshape, splitNl_append_nl _ hnl₂]
    rw [show splitNl ('\n' :: (joinStrs (ps.map (fun p => str "data: " ++ (p ++ str "\n\n"))) ++ R))
        = [] :: splitNl (joinStrs (ps.map (fun p => str "data: " ++ (p ++ str "\n\n"))) ++ R)
      from rfl]
    rw [List.foldl_cons, List.foldl_cons]
    rw [processLine_dataLine st hne htrim hdone hparse, processLine_empty]
    exact ih (ssePush st p) (fun q hq => h q (by simp [hq]))



/-- Claim C2 as amended: the `[DONE]` sentinel line itself never emits a
delta, but the consumer keeps reading — a well-formed stream of raw delta
events `pre`, then the sentinel, then further events `post` emits exactly
`pre ++ post`, the events after the sentinel included. -/
theorem sse_sentinel_line_skipped_only (pre post : List Str)
    (h : ∀ p ∈ pre ++ post,
        p ≠ [] ∧ jsTrim p = p ∧ '\n' ∉ p ∧ p ≠ str "[DONE]" ∧ jsonParse p = none) :
    (runStream [joinStrs (pre.map (fun p => str "data: " ++ (p ++ str "\n\n")))
        ++ (str "data: [DONE]\n\n"
          ++ joinStrs (post.map (fun p => str "data: " ++ (p ++ str "\n\n"))))]).emitted
      = pre ++ post := by
  have hpre : ∀ q ∈ pre, q ≠ [] ∧ jsTrim q = q ∧ '\n' ∉ q ∧ q ≠ str "[DONE]"
      ∧ jsonParse q = none := fun q hq => h q (List.mem_append.mpr (Or.inl hq))
  have hpost : ∀ q ∈ post, q ≠ [] ∧ jsTrim q = q ∧ '\n' ∉ q ∧ q ≠ str "[DONE]"
      ∧ jsonParse q = none := fun q hq => h q (List.mem_append.mpr (Or.inr hq))
  unfold runStream
  rw [List.foldl_cons, List.foldl_nil]
  unfold processChunk
  rw [fold_events pre
    (str "data: [DONE]\n\n" ++ joinStrs (post.map (fun p => str "data: " ++ (p ++ str "\n\n"))))
    sseInit hpre]
  rw [show splitNl (str "data: [DONE]\n\n"
        ++ joinStrs (post.map (fun p => str "data: " ++ (p ++ str "\n\n"))))
      = str "data: [DONE]" :: []
        :: splitNl (joinStrs (post.map (fun p => str "data: " ++ (p ++ str "\n\n"))))
    from rfl]
  rw [List.foldl_cons, List.foldl_cons]
  rw [show processLine (pre.foldl ssePush sseInit) (str "data: [DONE]")
      = pre.foldl ssePush sseInit from rfl]
  rw [processLine_empty]
  rw [show joinStrs (post.map (fun p => str "data: " ++ (p ++ str "\n\n")))
      = joinStrs (post.map (fun p => str "data: " ++ (p ++ str "\n\n"))) ++ [] from by simp]
  rw [fold_events post [] (pre.foldl ssePush sseInit) hpost]
  rw [show splitNl ([] : Str) = [[]] from rfl, List.foldl_cons, List.foldl_nil, processLine_empty]
  rw [foldl_ssePush_emitted, foldl_ssePush_emitted]
  simp [sseInit]

/-- Witness for the amended claim C2 at the concrete stream
`data: a`, `data: [DONE]`, `data: b`. -/
theorem sse_sentinel_line_skipped_only_witness :
    (∀ p ∈ [str "a"] ++ [str "b"],
        p ≠ [] ∧ jsTrim p = p ∧ '\n' ∉ p ∧ p ≠ str "[DONE]" ∧ jsonParse p = none)
  ∧ (runStream [joinStrs (([str "a"]).map (fun p => str "data: " ++ (p ++ str "\n\n")))
        ++ (str "data: [DONE]\n\n"
          ++ joinStrs (([str "b"]).map (fun p => str "data: " ++ (p ++ str "\n\n"))))]).emitted
      = [str "a"] ++ [str "b"] := by
  refine ⟨by decide, sse_sentinel_line_skipped_only [str "a"] [str "b"] (by decide)⟩



theorem dropWhile_head_false (p : Char → Bool) (l : Str) {c : Char} {r : Str}
    (h : l.dropWhile p = c :: r) : p c = false := by
  induction l with
  | nil => simp at h
  | cons d t ih =>
    rw [List.dropWhile_cons] at h
    by_cases hd : p d = true
    · exact ih (by rwa [if_pos hd] at h)
    · rw [if_neg hd] at h
      injection h with h1 h2
      subst h1
      simpa using hd

theorem takeWhile_all {α : Type} {p : α → Bool} {l : List α}
    (h : ∀ x ∈ l, p x = true) : l.takeWhile p = l := by
  induction l with
  | nil => rfl
  | cons a t ih =>
    rw [List.takeWhile_cons, if_pos (h a (by simp)), ih (fun x hx => h x (by simp [hx]))]

theorem renderLoop_nil (n : Nat) : renderLoop n [] = [] := by
  cases n <;> rfl

theorem isFence_false_of_head {l : Str} {c : Char} {r : Str}
    (hd : l.dropWhile jsWs = c :: r) (hc : c ≠ btick) : isFence l = false := by
  unfold isFence jsTrim trimL
  rw [hd]
  have hpre := trimR_prefix (c :: r)
  cases ht : trimR (c :: r) with
  | nil => rfl
  | cons d q =>
    rw [ht] at hpre
    obtain ⟨rfl, -⟩ := List.cons_prefix_cons.mp hpre
    rw [show str "```" = btick :: btick :: btick :: [] from by decide]
    show (btick == d && List.isPrefixOf (btick :: btick :: []) q) = false
    rw [beq_eq_false_iff_ne.mpr (Ne.symm hc)]
    rfl

theorem bullet_head {l t : Str} (h : bulletMatch l = some t) :
    ∃ c r, l.dropWhile jsWs = c :: r ∧ c ≠ btick := by
  unfold bulletMatch at h
  cases hd : l.dropWhile jsWs with
  | nil => rw [hd] at h; exact absurd h (by simp)
  | cons c r =>
    rw [hd] at h
    by_cases hc : c = '-' ∨ c = '*'
    · exact ⟨c, r, rfl, by rcases hc with rfl | rfl <;> decide⟩
    · rw [show (match c :: r with
          | c :: rest =>
            if c = '-' ∨ c = '*' then
              match rest.head? with
              | some w => if jsWs w then some (rest.dropWhile jsWs) else none
              | none => none
            else none
          | [] => none)
          = (if c = '-' ∨ c = '*' then
              match r.head? with
              | some w => if jsWs w then some (r.dropWhile jsWs) else none
              | none => none
            else none) from rfl, if_neg hc] at h
      exact absurd h (by simp)

theorem digit_ne_btick {c : Char} (h : c.isDigit = true) : c ≠ btick := by
  intro he
  subst he
  exact absurd h (by decide)

theorem num_head {l t : Str} (h : numMatch l = some t) :
    ∃ c r, l.dropWhile jsWs = c :: r ∧ c ≠ btick := by
  cases hd : l.dropWhile jsWs with
  | nil =>
    have hn : numMatch l = none := by
      unfold numMatch
      rw [hd]
      rfl
    rw [hn] at h
    exact absurd h (by simp)
  | cons c r =>
    refine ⟨c, r, rfl, ?_⟩
    by_cases h1 : (str "**").isPrefixOf (c :: r) = true
    · obtain ⟨s, hs⟩ := List.isPrefixOf_iff_prefix.mp h1
      rw [show str "**" = '*' :: '*' :: [] from by decide] at hs
      injection hs.symm with h2 h3
      subst h2
      decide
    · by_cases h2 : (str "__").isPrefixOf (c :: r) = true
      · obtain ⟨s, hs⟩ := List.isPrefixOf_iff_prefix.mp h2
        rw [show str "__" = '_' :: '_' :: [] from by decide] at hs
        injection hs.symm with h3 h4
        subst h3
        decide
      · have hnm : numMatch l = numTail (c :: r) := by
          unfold numMatch
          rw [hd]
          simp only [Bool.not_eq_true] at h1 h2
          simp only [h1, h2, Bool.false_eq_true, if_false]
        rw [hnm] at h
        have hws : jsWs c = false := dropWhile_head_false jsWs l hd
        have hr₁ : (c :: r).dropWhile jsWs = c :: r := by
          rw [List.dropWhile_cons, if_neg (by simp [hws])]
        by_cases hdig : c.isDigit = true
        · exact digit_ne_btick hdig
        · exfalso
          have hn : numTail (c :: r) = none := by
            unfold numTail
            rw [hr₁]
            simp [List.takeWhile_cons, hdig]
          rw [hn] at h
          exact absurd h (by simp)

theorem renderLoop_all_bullets (n : Nat) (l : Str) (rest : List Str)
    (h : ∀ x ∈ l :: rest, (bulletMatch x).isSome = true) :
    renderLoop (n + 1) (l :: rest)
      = [ulOpen ++ joinStrs ((l :: rest).map liBullet) ++ str "</ul>"] := by
  obtain ⟨t, ht⟩ := Option.isSome_iff_exists.mp (h l (by simp))
  obtain ⟨c, r, hd, hc⟩ := bullet_head ht
  have hfence : isFence l = false := isFence_false_of_head hd hc
  have htake : (l :: rest).takeWhile (fun x => (bulletMatch x).isSome) = l :: rest :=
    takeWhile_all h
  rw [renderLoop]
  simp only [hfence, Bool.false_eq_true, if_false, ht, htake, List.drop_length,
    renderLoop_nil]

theorem renderLoop_all_nums (n : Nat) (l : Str) (rest : List Str)
    (hb : bulletMatch l = none)
    (h : ∀ x ∈ l :: rest, (numMatch x).isSome = true) :
    renderLoop (n + 1) (l :: rest)
      = [olOpen ++ joinStrs ((l :: rest).map liNum) ++ str "</ol>"] := by
  obtain ⟨t, ht⟩ := Option.isSome_iff_exists.mp (h l (by simp))
  obtain ⟨c, r, hd, hc⟩ := num_head ht
  have hfence : isFence l = false := isFence_false_of_head hd hc
  have htake : (l :: rest).takeWhile (fun x => (numMatch x).isSome) = l :: rest :=
    takeWhile_all h
  rw [renderLoop]
  simp only [hfence, Bool.false_eq_true, if_false, hb, ht, htake, List.drop_length,
    renderLoop_nil]

theorem splitLines_cons_generic {c : Char} (t : Str) (hc1 : c ≠ '\n') (hc2 : c ≠ '\r') :
    splitLines (c :: t)
      = match splitLines t with
        | [] => [[c]]
        | h :: t' => (c :: h) :: t' := by
  rw [splitLines.eq_def]
  simp only []
  rw [if_neg hc1, if_neg hc2]

theorem splitLines_cons_nl (t : Str) : splitLines ('\n' :: t) = [] :: splitLines t := by
  rw [splitLines.eq_def]
  simp only []
  exact if_pos trivial

theorem splitLines_no_nl {l : Str} (h1 : '\n' ∉ l) (h2 : '\r' ∉ l) :
    splitLines l = [l] := by
  induction l with
  | nil => rfl
  | cons c t ih =>
    rw [splitLines_cons_generic t (fun he => h1 (he ▸ List.mem_cons_self c t))
      (fun he => h2 (he ▸ List.mem_cons_self c t))]
    rw [ih (fun hm => h1 (List.mem_cons_of_mem c hm))
      (fun hm => h2 (List.mem_cons_of_mem c hm))]

theorem splitLines_append_nl {a : Str} (b : Str) (h1 : '\n' ∉ a) (h2 : '\r' ∉ a) :
    splitLines (a ++ '\n' :: b) = a :: splitLines b := by
  induction a with
  | nil => exact splitLines_cons_nl b
  | cons c t ih =>
    rw [List.cons_append]
    rw [splitLines_cons_generic (t ++ '\n' :: b) (fun he => h1 (he ▸ List.mem_cons_self c t))
      (fun he => h2 (he ▸ List.mem_cons_self c t))]
    rw [ih (fun hm => h1 (List.mem_cons_of_mem c hm))
      (fun hm => h2 (List.mem_cons_of_mem c hm))]

theorem splitLines_joinWith (ls : List Str) (hne : ls ≠ [])
    (h : ∀ x ∈ ls, '\n' ∉ x ∧ '\r' ∉ x) :
    splitLines (joinWith ['\n'] ls) = ls := by
  induction ls with
  | nil => exact absurd rfl hne
  | cons a t ih =>
    cases t with
    | nil => exact splitLines_no_nl (h a (by simp)).1 (h a (by simp)).2
    | cons b t' =>
      rw [show joinWith ['\n'] (a :: b :: t') = a ++ '\n' :: joinWith ['\n'] (b :: t') from by
        show a ++ ['\n'] ++ joinWith ['\n'] (b :: t') = a ++ '\n' :: joinWith ['\n'] (b :: t')
        simp]
      rw [splitLines_append_nl _ (h a (by simp)).1 (h a (by simp)).2,
        ih (by simp) (fun x hx => h x (by simp [hx]))]

/-- C8 (amended): a nonempty run of consecutive bullet-marker lines becomes
exactly one unordered list with one `<li>` per line, and a nonempty run of
numbered lines becomes exactly one ordered list with one `<li>` per line —
already for a single isolated line. -/
theorem render_bullet_groups_single_list (ls ms : List Str)
    (hls : ls ≠ [])
    (hls2 : ∀ x ∈ ls, (bulletMatch x).isSome = true ∧ '\n' ∉ x ∧ '\r' ∉ x)
    (hms : ms ≠ [])
    (hms2 : ∀ x ∈ ms,
      (numMatch x).isSome = true ∧ bulletMatch x = none ∧ '\n' ∉ x ∧ '\r' ∉ x) :
    renderChatHtml (String.mk (joinWith ['\n'] ls))
        = String.mk (ulOpen ++ joinStrs (ls.map liBullet) ++ str "</ul>")
      ∧ renderChatHtml (String.mk (joinWith ['\n'] ms))
        = String.mk (olOpen ++ joinStrs (ms.map liNum) ++ str "</ol>") := by
  constructor
  · obtain ⟨a, t, rfl⟩ : ∃ a t, ls = a :: t := by
      cases ls with
      | nil => exact absurd rfl hls
      | cons a t => exact ⟨a, t, rfl⟩
    unfold renderChatHtml renderChatHtmlStr
    rw [show str (String.mk (joinWith ['\n'] (a :: t))) = joinWith ['\n'] (a :: t) from rfl]
    rw [splitLines_joinWith _ (by simp) (fun x hx => (hls2 x hx).2)]
    simp only [List.length_cons]
    rw [renderLoop_all_bullets (t.length + 1) a t (fun x hx => (hls2 x hx).1)]
    rw [show joinStrs [ulOpen ++ joinStrs ((a :: t).map liBullet) ++ str "</ul>"]
        = ulOpen ++ joinStrs ((a :: t).map liBullet) ++ str "</ul>" ++ [] from rfl,
      List.append_nil]
  · obtain ⟨a, t, rfl⟩ : ∃ a t, ms = a :: t := by
      cases ms with
      | nil => exact absurd rfl hms
      | cons a t => exact ⟨a, t, rfl⟩
    unfold renderChatHtml renderChatHtmlStr
    rw [show str (String.mk (joinWith ['\n'] (a :: t))) = joinWith ['\n'] (a :: t) from rfl]
    rw [splitLines_joinWith _ (by simp) (fun x hx => (hms2 x hx).2.2)]
    simp only [List.length_cons]
    rw [renderLoop_all_nums (t.length + 1) a t (hms2 a (by simp)).2.1 (fun x hx => (hms2 x hx).1)]
    rw [show joinStrs [olOpen ++ joinStrs ((a :: t).map liNum) ++ str "</ol>"]
        = olOpen ++ joinStrs ((a :: t).map liNum) ++ str "</ol>" ++ [] from rfl,
      List.append_nil]

/-- Witness for C8 at the concrete groups `- a` / `- b` and `1. a` / `2. b`. -/
theorem render_bullet_groups_single_list_witness :
    renderChatHtml (String.mk (joinWith ['\n'] [str "- a", str "- b"]))
        = String.mk (ulOpen ++ joinStrs ([str "- a", str "- b"].map liBullet) ++ str "</ul>")
      ∧ renderChatHtml (String.mk (joinWith ['\n'] [str "1. a", str "2. b"]))
        = String.mk (olOpen ++ joinStrs ([str "1. a", str "2. b"].map liNum) ++ str "</ol>") :=
  render_bullet_groups_single_list [str "- a", str "- b"] [str "1. a", str "2. b"]
    (by decide) (by decide) (by decide) (by decide)


theorem hasSub_iff (p : Str) : ∀ l, hasSub p l = true ↔ p <:+: l := by
  intro l
  induction l with
  | nil => simp [hasSub, List.isEmpty_iff, List.infix_nil]
  | cons c t ih =>
    simp [hasSub, ih, List.infix_cons_iff, List.isPrefixOf_iff_prefix]

theorem noSc_infix {l m : Str} (h : NoSc l) (hm : m <:+: l) : NoSc m :=
  fun hc => h (hc.trans hm)

theorem scPat_not_prefix_of_ne {c : Char} (m : Str) (hc : c ≠ '<') :
    ¬ scPat <+: c :: m := by
  rintro ⟨r, hr⟩
  injection hr with h1 h2
  exact hc h1.symm

theorem noSc_cons_of {c : Char} {m : Str} (h1 : ¬ scPat <+: c :: m) (h2 : NoSc m) :
    NoSc (c :: m) := by
  intro hc
  rcases List.infix_cons_iff.mp hc with hp | hi
  · exact h1 hp
  · exact h2 hi

theorem infix3_append {a b d : Char} {x y : Str} (h : [a, b, d] <:+: x ++ y) :
    [a, b, d] <:+: x ∨ [a, b, d] <:+: y
      ∨ (∃ s, x = s ++ [a] ∧ [b, d] <+: y)
      ∨ (∃ s, x = s ++ [a, b] ∧ [d] <+: y) := by
  induction x with
  | nil => exact Or.inr (Or.inl h)
  | cons e x' ih =>
    rw [List.cons_append, List.infix_cons_iff] at h
    rcases h with hp | hi
    · obtain ⟨r, hr⟩ := hp
      injection hr with h1 h2
      subst h1
      cases x' with
      | nil => exact Or.inr (Or.inr (Or.inl ⟨[], rfl, ⟨r, h2⟩⟩))
      | cons f x₂ =>
        rw [List.cons_append] at h2
        injection h2 with h3 h4
        subst h3
        cases x₂ with
        | nil => exact Or.inr (Or.inr (Or.inr ⟨[], rfl, ⟨r, h4⟩⟩))
        | cons g x₃ =>
          rw [List.cons_append] at h4
          injection h4 with h5 h6
          subst h5
          exact Or.inl (List.IsPrefix.isInfix ⟨x₃, rfl⟩)
    · rcases ih hi with h1 | h2 | ⟨s, hs, hp2⟩ | ⟨s, hs, hp2⟩
      · exact Or.inl (h1.trans (List.infix_cons_iff.mpr (Or.inr List.infix_rfl)))
      · exact Or.inr (Or.inl h2)
      · exact Or.inr (Or.inr (Or.inl ⟨e :: s, by rw [hs, List.cons_append], hp2⟩))
      · exact Or.inr (Or.inr (Or.inr ⟨e :: s, by rw [hs, List.cons_append], hp2⟩))

theorem noSc_append_right {x y : Str} (hx : NoSc x) (hy : NoSc y)
    (hh : ∀ c, y.head? = some c → c ≠ 's' ∧ c ≠ 'c') : NoSc (x ++ y) := by
  intro h
  rcases infix3_append h with h1 | h2 | ⟨s, hs, hp⟩ | ⟨s, hs, hp⟩
  · exact hx h1
  · exact hy h2
  · obtain ⟨r, hr⟩ := hp
    exact (hh 's' (by rw [← hr]; rfl)).1 rfl
  · obtain ⟨r, hr⟩ := hp
    exact (hh 'c' (by rw [← hr]; rfl)).2 rfl

theorem noSc_append_left {x y : Str} (hx : NoSc x) (hy : NoSc y)
    (hh : ∀ c, x.getLast? = some c → c ≠ '<' ∧ c ≠ 's') : NoSc (x ++ y) := by
  intro h
  rcases infix3_append h with h1 | h2 | ⟨s, hs, -⟩ | ⟨s, hs, -⟩
  · exact hx h1
  · exact hy h2
  · exact (hh '<' (by rw [hs]; exact List.getLast?_concat s)).1 rfl
  · refine (hh 's' ?_).2 rfl
    rw [hs, show s ++ ['<', 's'] = (s ++ ['<']) ++ ['s'] from (List.append_assoc s ['<'] ['s']).symm]
    exact List.getLast?_concat _

theorem head_cond_of_eq (d : Char) {y : Str} (hy : y.head? = some d)
    (h1 : d ≠ 's') (h2 : d ≠ 'c') : ∀ c, y.head? = some c → c ≠ 's' ∧ c ≠ 'c' := by
  intro c hc
  rw [hy] at hc
  injection hc with he
  subst he
  exact ⟨h1, h2⟩

theorem last_cond_of_eq (d : Char) {x : Str} (hx : x.getLast? = some d)
    (h1 : d ≠ '<') (h2 : d ≠ 's') : ∀ c, x.getLast? = some c → c ≠ '<' ∧ c ≠ 's' := by
  intro c hc
  rw [hx] at hc
  injection hc with he
  subst he
  exact ⟨h1, h2⟩

theorem replaceAllChar_no_target {t : Char} {rep : Str} (htr : t ∉ rep) :
    ∀ l : Str, t ∉ replaceAllChar t rep l := by
  intro l
  induction l with
  | nil => simp [replaceAllChar]
  | cons c l ih =>
    simp only [replaceAllChar]
    intro hmem
    rcases List.mem_append.mp hmem with h1 | h2
    · by_cases hc : c = t
      · rw [if_pos hc] at h1
        exact htr h1
      · rw [if_neg hc] at h1
        simp at h1
        exact hc h1.symm
    · exact ih h2

theorem replaceAllChar_no_other {t x : Char} {rep : Str} (hxr : x ∉ rep) :
    ∀ l : Str, x ∉ l → x ∉ replaceAllChar t rep l := by
  intro l
  induction l with
  | nil => intro _; simp [replaceAllChar]
  | cons c l ih =>
    intro hxl
    simp only [replaceAllChar]
    intro hmem
    rcases List.mem_append.mp hmem with h1 | h2
    · by_cases hc : c = t
      · rw [if_pos hc] at h1
        exact hxr h1
      · rw [if_neg hc] at h1
        simp at h1
        exact hxl (h1 ▸ List.mem_cons_self c l)
    · exact ih (fun hm => hxl (List.mem_cons_of_mem c hm)) h2

theorem esc_no_lt (l : Str) : '<' ∉ esc l := by
  unfold esc
  apply replaceAllChar_no_other (by decide)
  apply replaceAllChar_no_target (by decide)

theorem noSc_of_no_lt {l : Str} (h : '<' ∉ l) : NoSc l := by
  rintro ⟨s, t, hst⟩
  apply h
  rw [← hst]
  simp [scPat]

theorem esc_noSc (l : Str) : NoSc (esc l) := noSc_of_no_lt (esc_no_lt l)

theorem replaceCode_head (fuel : Nat) (l : Str) :
    (replaceCode fuel l).head? = l.head? ∨ (replaceCode fuel l).head? = some '<' := by
  cases fuel with
  | zero => exact Or.inl rfl
  | succ f =>
    cases l with
    | nil => exact Or.inl rfl
    | cons c rest =>
      rw [replaceCode.eq_def]
      simp only []
      split
      · split
        · split
          · exact Or.inl rfl
          · exact Or.inr rfl
        · exact Or.inl rfl
      · exact Or.inl rfl

theorem replaceDouble_head (mark : Char) (fuel : Nat) (l : Str) :
    (replaceDouble mark fuel l).head? = l.head?
      ∨ (replaceDouble mark fuel l).head? = some '<' := by
  cases fuel with
  | zero => exact Or.inl rfl
  | succ f =>
    cases l with
    | nil => exact Or.inl rfl
    | cons c rest =>
      rw [replaceDouble.eq_def]
      simp only []
      split
      · split
        · exact Or.inl rfl
        · split
          · split
            · exact Or.inr rfl
            · exact Or.inl rfl
          · exact Or.inl rfl
      · exact Or.inl rfl

theorem replaceSingle_head (mark : Char) (fuel : Nat) (prev : Option Char) (l : Str) :
    (replaceSingle mark fuel prev l).head? = l.head?
      ∨ (replaceSingle mark fuel prev l).head? = some '<' := by
  cases fuel with
  | zero => exact Or.inl rfl
  | succ f =>
    cases l with
    | nil => exact Or.inl rfl
    | cons c rest =>
      rw [replaceSingle.eq_def]
      simp only []
      split
      · split
        · exact Or.inl rfl
        · split
          · split
            · exact Or.inl rfl
            · exact Or.inr rfl
          · exact Or.inl rfl
      · exact Or.inl rfl

theorem replaceLinks_head (fuel : Nat) (l : Str) :
    (replaceLinks fuel l).head? = l.head? ∨ (replaceLinks fuel l).head? = some '<' := by
  cases fuel with
  | zero => exact Or.inl rfl
  | succ f =>
    cases l with
    | nil => exact Or.inl rfl
    | cons c rest =>
      rw [replaceLinks.eq_def]
      simp only []
      split
      · exact Or.inr rfl
      · exact Or.inl rfl

theorem replaceCode_step {c : Char} (hc : c ≠ btick) (fuel : Nat) (rest : Str) :
    replaceCode (fuel + 1) (c :: rest) = c :: replaceCode fuel rest := by
  rw [replaceCode.eq_def]
  simp only []
  rw [if_neg hc]

theorem replaceDouble_step {mark c : Char} (hc : c ≠ mark) (fuel : Nat) (rest : Str) :
    replaceDouble mark (fuel + 1) (c :: rest) = c :: replaceDouble mark fuel rest := by
  rw [replaceDouble.eq_def]
  simp only []
  rw [if_neg (fun hh => hc hh.1)]

theorem replaceSingle_step {mark c : Char} (hc : c ≠ mark) (fuel : Nat)
    (prev : Option Char) (rest : Str) :
    replaceSingle mark (fuel + 1) prev (c :: rest)
      = c :: replaceSingle mark fuel (some c) rest := by
  rw [replaceSingle.eq_def]
  simp only []
  rw [if_neg (fun hh => hc hh.1)]

theorem isPrefixOf_false_of_head {p : Str} {a c : Char} {pr rest : Str}
    (hp : p = a :: pr) (hc : a ≠ c) : p.isPrefixOf (c :: rest) = false := by
  subst hp
  show (a == c && List.isPrefixOf pr rest) = false
  rw [beq_eq_false_iff_ne.mpr hc, Bool.false_and]

theorem linkProto_none_of_head {c : Char} (hc : c ≠ 'h') (rest : Str) :
    linkProto (c :: rest) = none := by
  have h1 : (str "https://").isPrefixOf (c :: rest) = false :=
    isPrefixOf_false_of_head (show str "https://" = 'h' :: str "ttps://" from by decide)
      (fun he => hc he.symm)
  have h2 : (str "http://").isPrefixOf (c :: rest) = false :=
    isPrefixOf_false_of_head (show str "http://" = 'h' :: str "ttp://" from by decide)
      (fun he => hc he.symm)
  unfold linkProto
  rw [if_neg (by simp [h1]), if_neg (by simp [h2])]

theorem tryLink_none_of_head {c : Char} (hc : c ≠ 'h') (rest : Str) :
    tryLink (c :: rest) = none := by
  unfold tryLink
  rw [linkProto_none_of_head hc]

theorem replaceLinks_step {c : Char} (hc : c ≠ 'h') (fuel : Nat) (rest : Str) :
    replaceLinks (fuel + 1) (c :: rest) = c :: replaceLinks fuel rest := by
  rw [replaceLinks.eq_def]
  simp only [tryLink_none_of_head hc]

theorem not_sc_head_cases {rest out : Str}
    (h : ¬ ['s', 'c'] <+: rest)
    (h1 : out.head? = rest.head? ∨ out.head? = some '<')
    (h2 : ∀ r2, rest = 's' :: r2 →
      ∃ out2, out = 's' :: out2 ∧ (out2.head? = r2.head? ∨ out2.head? = some '<')) :
    ¬ ['s', 'c'] <+: out := by
  rintro ⟨r, hr⟩
  have hout : out = 's' :: 'c' :: r := hr.symm
  subst hout
  rcases h1 with h1 | h1
  · cases rest with
    | nil => simp at h1
    | cons x r2 =>
      simp only [List.head?] at h1
      injection h1 with hx
      subst hx
      obtain ⟨out2, ho2, hh2⟩ := h2 r2 rfl
      injection ho2 with h3 h4
      subst h4
      rcases hh2 with hh | hh
      · cases r2 with
        | nil => simp at hh
        | cons y r3 =>
          simp only [List.head?] at hh
          injection hh with hy
          subst hy
          exact h ⟨r3, rfl⟩
      · simp at hh
  · simp at h1

theorem replaceCode_not_sc (fuel : Nat) (rest : Str) (h : ¬ ['s', 'c'] <+: rest) :
    ¬ ['s', 'c'] <+: replaceCode fuel rest := by
  apply not_sc_head_cases h (replaceCode_head fuel rest)
  intro r2 hr2
  subst hr2
  cases fuel with
  | zero => exact ⟨r2, rfl, Or.inl rfl⟩
  | succ f => exact ⟨replaceCode f r2, replaceCode_step (by decide) f r2, replaceCode_head f r2⟩

theorem replaceDouble_not_sc (mark : Char) (hms : mark ≠ 's') (fuel : Nat) (rest : Str)
    (h : ¬ ['s', 'c'] <+: rest) : ¬ ['s', 'c'] <+: replaceDouble mark fuel rest := by
  apply not_sc_head_cases h (replaceDouble_head mark fuel rest)
  intro r2 hr2
  subst hr2
  cases fuel with
  | zero => exact ⟨r2, rfl, Or.inl rfl⟩
  | succ f =>
    exact ⟨replaceDouble mark f r2, replaceDouble_step (fun he => hms he.symm) f r2,
      replaceDouble_head mark f r2⟩

theorem replaceSingle_not_sc (mark : Char) (hms : mark ≠ 's') (fuel : Nat)
    (prev : Option Char) (rest : Str) (h : ¬ ['s', 'c'] <+: rest) :
    ¬ ['s', 'c'] <+: replaceSingle mark fuel prev rest := by
  apply not_sc_head_cases h (replaceSingle_head mark fuel prev rest)
  intro r2 hr2
  subst hr2
  cases fuel with
  | zero => exact ⟨r2, rfl, Or.inl rfl⟩
  | succ f =>
    exact ⟨replaceSingle mark f (some 's') r2,
      replaceSingle_step (fun he => hms he.symm) f prev r2,
      replaceSingle_head mark f (some 's') r2⟩

theorem replaceLinks_not_sc (fuel : Nat) (rest : Str) (h : ¬ ['s', 'c'] <+: rest) :
    ¬ ['s', 'c'] <+: replaceLinks fuel rest := by
  apply not_sc_head_cases h (replaceLinks_head fuel rest)
  intro r2 hr2
  subst hr2
  cases fuel with
  | zero => exact ⟨r2, rfl, Or.inl rfl⟩
  | succ f => exact ⟨replaceLinks f r2, replaceLinks_step (by decide) f r2, replaceLinks_head f r2⟩

theorem noSc_copy {c : Char} {rest out2 : Str} (h : NoSc (c :: rest)) (hrec : NoSc out2)
    (hsc : ¬ ['s', 'c'] <+: rest → ¬ ['s', 'c'] <+: out2) : NoSc (c :: out2) := by
  apply noSc_cons_of ?_ hrec
  by_cases hlt : c = '<'
  · subst hlt
    rintro ⟨r, hr⟩
    injection hr with h1 h2
    have hns : ¬ ['s', 'c'] <+: rest := by
      rintro ⟨r2, hr2⟩
      exact h ⟨[], r2, by rw [← hr2]; rfl⟩
    exact hsc hns ⟨r, h2⟩
  · exact scPat_not_prefix_of_ne _ hlt

theorem replaceCode_noSc : ∀ (fuel : Nat) (l : Str), NoSc l → NoSc (replaceCode fuel l)
  | 0, _, h => h
  | _ + 1, [], h => h
  | fuel + 1, c :: rest, h => by
    have hrest : NoSc rest := noSc_infix h (List.suffix_cons c rest).isInfix
    by_cases hc : c = btick
    · subst hc
      rw [replaceCode.eq_def]
      simp only []
      rw [if_pos trivial]
      cases hdrop : rest.drop ((rest.takeWhile (· ≠ btick)).length) with
      | nil => exact noSc_copy h (replaceCode_noSc fuel rest hrest) (replaceCode_not_sc fuel rest)
      | cons d tail =>
        simp only []
        by_cases hg : (rest.takeWhile (· ≠ btick)).isEmpty = true
        · rw [if_pos hg]
          exact noSc_copy h (replaceCode_noSc fuel rest hrest) (replaceCode_not_sc fuel rest)
        · rw [if_neg hg]
          have hgrp : NoSc (rest.takeWhile (· ≠ btick)) :=
            noSc_infix hrest (List.takeWhile_prefix _).isInfix
          have htail : NoSc tail :=
            noSc_infix hrest
              (((List.suffix_cons d tail).trans (hdrop ▸ List.drop_suffix _ rest)).isInfix)
          rw [List.append_assoc, List.append_assoc]
          refine noSc_append_left (by decide) ?_
            (last_cond_of_eq '>' (by decide) (by decide) (by decide))
          refine noSc_append_right hgrp ?_
            (head_cond_of_eq '<' rfl (by decide) (by decide))
          exact noSc_append_left (by decide) (replaceCode_noSc fuel tail htail)
            (last_cond_of_eq '>' (by decide) (by decide) (by decide))
    · rw [replaceCode_step hc]
      exact noSc_copy h (replaceCode_noSc fuel rest hrest) (replaceCode_not_sc fuel rest)

theorem replaceDouble_noSc (mark : Char) (hms : mark ≠ 's') :
    ∀ (fuel : Nat) (l : Str), NoSc l → NoSc (replaceDouble mark fuel l)
  | 0, _, h => h
  | _ + 1, [], h => h
  | fuel + 1, c :: rest, h => by
    have hrest : NoSc rest := noSc_infix h (List.suffix_cons c rest).isInfix
    have hcopy : NoSc (c :: replaceDouble mark fuel rest) :=
      noSc_copy h (replaceDouble_noSc mark hms fuel rest hrest)
        (replaceDouble_not_sc mark hms fuel rest)
    by_cases htr : c = mark ∧ rest.head? = some mark
    · rw [replaceDouble.eq_def]
      simp only []
      rw [if_pos htr]
      by_cases hg : (rest.tail.takeWhile (· ≠ mark)).isEmpty = true
      · rw [if_pos hg]
        exact hcopy
      · rw [if_neg hg]
        cases hdrop : rest.tail.drop ((rest.tail.takeWhile (· ≠ mark)).length) with
        | nil => exact hcopy
        | cons m1 tl2 =>
          cases tl2 with
          | nil => exact hcopy
          | cons m2 tail =>
            simp only []
            by_cases h12 : m1 = mark ∧ m2 = mark
            · rw [if_pos h12]
              have hgrp : NoSc (rest.tail.takeWhile (· ≠ mark)) :=
                noSc_infix hrest
                  ((List.takeWhile_prefix _).isInfix.trans (List.tail_suffix rest).isInfix)
              have htail : NoSc tail := by
                have hsfx : tail <:+ rest.tail :=
                  ((List.suffix_cons m2 tail).trans
                    ((List.suffix_cons m1 (m2 :: tail)).trans
                      (hdrop ▸ List.drop_suffix _ rest.tail)))
                exact noSc_infix hrest (hsfx.isInfix.trans (List.tail_suffix rest).isInfix)
              rw [List.append_assoc, List.append_assoc]
              refine noSc_append_left (by decide) ?_
                (last_cond_of_eq '>' (by decide) (by decide) (by decide))
              refine noSc_append_right hgrp ?_
                (head_cond_of_eq '<' rfl (by decide) (by decide))
              exact noSc_append_left (by decide)
                (replaceDouble_noSc mark hms fuel tail htail)
                (last_cond_of_eq '>' (by decide) (by decide) (by decide))
            · rw [if_neg h12]
              exact hcopy
    · rw [replaceDouble.eq_def]
      simp only []
      rw [if_neg htr]
      exact hcopy

theorem replaceSingle_noSc (mark : Char) (hms : mark ≠ 's') :
    ∀ (fuel : Nat) (prev : Option Char) (l : Str), NoSc l →
      NoSc (replaceSingle mark fuel prev l)
  | 0, _, _, h => h
  | _ + 1, _, [], h => h
  | fuel + 1, prev, c :: rest, h => by
    have hrest : NoSc rest := noSc_infix h (List.suffix_cons c rest).isInfix
    have hcopy : NoSc (c :: replaceSingle mark fuel (some c) rest) :=
      noSc_copy h (replaceSingle_noSc mark hms fuel (some c) rest hrest)
        (replaceSingle_not_sc mark hms fuel (some c) rest)
    by_cases htr : c = mark ∧ prev ≠ some mark
    · rw [replaceSingle.eq_def]
      simp only []
      rw [if_pos htr]
      by_cases hg : (rest.takeWhile (· ≠ mark)).isEmpty = true
      · rw [if_pos hg]
        exact hcopy
      · rw [if_neg hg]
        cases hdrop : rest.drop ((rest.takeWhile (· ≠ mark)).length) with
        | nil => exact hcopy
        | cons d tail =>
          simp only []
          by_cases hnext : tail.head? = some mark
          · rw [if_pos hnext]
            exact hcopy
          · rw [if_neg hnext]
            have hgrp : NoSc (rest.takeWhile (· ≠ mark)) :=
              noSc_infix hrest (List.takeWhile_prefix _).isInfix
            have htail : NoSc tail :=
              noSc_infix hrest
                (((List.suffix_cons d tail).trans (hdrop ▸ List.drop_suffix _ rest)).isInfix)
            rw [List.append_assoc, List.append_assoc]
            refine noSc_append_left (by decide) ?_
              (last_cond_of_eq '>' (by decide) (by decide) (by decide))
            refine noSc_append_right hgrp ?_
              (head_cond_of_eq '<' rfl (by decide) (by decide))
            exact noSc_append_left (by decide)
              (replaceSingle_noSc mark hms fuel (some mark) tail htail)
              (last_cond_of_eq '>' (by decide) (by decide) (by decide))
    · rw [replaceSingle.eq_def]
      simp only []
      rw [if_neg htr]
      exact hcopy

theorem pickUrlLen_spec : ∀ (rev rest : Str) {chosen rest' : Str},
    pickUrlLen rev rest = some (chosen, rest') → chosen ++ rest' = rev.reverse ++ rest
  | [], rest, chosen, rest', h => by simp [pickUrlLen] at h
  | c :: revRest, rest, chosen, rest', h => by
    rw [pickUrlLen.eq_def] at h
    simp only [] at h
    by_cases hg : hasGtBeforeLt rest = true
    · rw [if_pos hg] at h
      have := pickUrlLen_spec revRest (c :: rest) h
      rw [this, List.reverse_cons, List.append_assoc]
      rfl
    · rw [if_neg hg] at h
      injection h with h2
      injection h2 with ha hb
      rw [← ha, ← hb, List.reverse_cons, List.append_assoc]

theorem takeWhile_drop (p : Char → Bool) : ∀ l : Str,
    l.takeWhile p ++ l.drop (l.takeWhile p).length = l
  | [] => rfl
  | c :: t => by
    rw [List.takeWhile_cons]
    by_cases hc : p c = true
    · rw [if_pos hc, List.length_cons, List.cons_append,
        show (c :: t).drop ((t.takeWhile p).length + 1) = t.drop (t.takeWhile p).length from rfl,
        takeWhile_drop p t]
    · rw [if_neg hc]
      rfl

theorem linkProto_spec {l proto after : Str} (h : linkProto l = some (proto, after)) :
    proto ++ after = l := by
  unfold linkProto at h
  by_cases h1 : (str "https://").isPrefixOf l = true
  · rw [if_pos (by simp [h1])] at h
    injection h with h2
    injection h2 with ha hb
    obtain ⟨t, ht⟩ := List.isPrefixOf_iff_prefix.mp h1
    have hdrop : l.drop 8 = t := by
      rw [← ht, show (8 : Nat) = (str "https://").length from rfl]
      exact List.drop_left _ _
    rw [← ha, ← hb, hdrop]
    exact ht
  · rw [if_neg (by simp [h1])] at h
    by_cases h2 : (str "http://").isPrefixOf l = true
    · rw [if_pos (by simp [h2])] at h
      injection h with h3
      injection h3 with ha hb
      obtain ⟨t, ht⟩ := List.isPrefixOf_iff_prefix.mp h2
      have hdrop : l.drop 7 = t := by
        rw [← ht, show (7 : Nat) = (str "http://").length from rfl]
        exact List.drop_left _ _
      rw [← ha, ← hb, hdrop]
      exact ht
    · rw [if_neg (by simp [h2])] at h
      exact absurd h (by simp)

theorem tryLink_spec {l url rest' : Str} (h : tryLink l = some (url, rest')) :
    url ++ rest' = l := by
  unfold tryLink at h
  cases hp : linkProto l with
  | none =>
    rw [hp] at h
    exact absurd h (by simp)
  | some pa =>
    obtain ⟨proto, after⟩ := pa
    rw [hp] at h
    simp only [] at h
    cases hq : pickUrlLen (after.takeWhile urlChar).reverse
        (after.drop (after.takeWhile urlChar).length) with
    | none =>
      rw [hq] at h
      exact absurd h (by simp)
    | some cr =>
      obtain ⟨chosen, rest₂⟩ := cr
      rw [hq] at h
      simp only [] at h
      injection h with h2
      injection h2 with ha hb
      have hspec := pickUrlLen_spec _ _ hq
      rw [List.reverse_reverse] at hspec
      rw [← ha, ← hb, List.append_assoc, hspec, takeWhile_drop]
      exact linkProto_spec hp

theorem replaceLinks_noSc : ∀ (fuel : Nat) (l : Str), NoSc l → NoSc (replaceLinks fuel l)
  | 0, _, h => h
  | _ + 1, [], h => h
  | fuel + 1, c :: rest, h => by
    have hrest : NoSc rest := noSc_infix h (List.suffix_cons c rest).isInfix
    rw [replaceLinks.eq_def]
    simp only []
    cases htl : tryLink (c :: rest) with
    | none =>
      exact noSc_copy h (replaceLinks_noSc fuel rest hrest) (replaceLinks_not_sc fuel rest)
    | some pr =>
      obtain ⟨url, rest'⟩ := pr
      simp only []
      have hspec : url ++ rest' = c :: rest := tryLink_spec htl
      have hurl : NoSc url := noSc_infix h (List.IsPrefix.isInfix ⟨rest', hspec⟩)
      have hrest' : NoSc rest' := noSc_infix h (List.IsSuffix.isInfix ⟨url, hspec⟩)
      rw [List.append_assoc, List.append_assoc, List.append_assoc, List.append_assoc]
      refine noSc_append_left (by decide) ?_
        (last_cond_of_eq '"' (by decide) (by decide) (by decide))
      refine noSc_append_right hurl ?_
        (head_cond_of_eq '"' rfl (by decide) (by decide))
      refine noSc_append_left (by decide) ?_
        (last_cond_of_eq '>' (by decide) (by decide) (by decide))
      refine noSc_append_right hurl ?_
        (head_cond_of_eq '<' rfl (by decide) (by decide))
      exact noSc_append_left (by decide) (replaceLinks_noSc fuel rest' hrest')
        (last_cond_of_eq '>' (by decide) (by decide) (by decide))

theorem inline_noSc (s : Str) : NoSc (inline s) := by
  unfold inline
  simp only []
  apply replaceLinks_noSc
  apply replaceSingle_noSc '_' (by decide)
  apply replaceSingle_noSc '*' (by decide)
  apply replaceDouble_noSc '_' (by decide)
  apply replaceDouble_noSc '*' (by decide)
  apply replaceCode_noSc
  exact esc_noSc s

theorem li_wrap_noSc (x : Str) (hx : NoSc x) : NoSc (str "<li>" ++ x ++ str "</li>") := by
  rw [List.append_assoc]
  refine noSc_append_left (by decide) ?_ (last_cond_of_eq '>' (by decide) (by decide) (by decide))
  exact noSc_append_right hx (by decide) (head_cond_of_eq '<' rfl (by decide) (by decide))

theorem liBullet_noSc (x : Str) : NoSc (liBullet x) :=
  li_wrap_noSc (inline ((bulletMatch x).getD x)) (inline_noSc _)

theorem liNum_noSc (x : Str) : NoSc (liNum x) :=
  li_wrap_noSc (inline ((numMatch x).getD x)) (inline_noSc _)

theorem joinStrs_noSc : ∀ (ls : List Str),
    (∀ x ∈ ls, NoSc x ∧ x.head? = some '<') →
    NoSc (joinStrs ls) ∧ (joinStrs ls = [] ∨ (joinStrs ls).head? = some '<')
  | [], _ => ⟨by decide, Or.inl rfl⟩
  | a :: t, h => by
    have ih := joinStrs_noSc t (fun x hx => h x (List.mem_cons_of_mem a hx))
    have ha := h a (List.mem_cons_self a t)
    constructor
    · show NoSc (a ++ joinStrs t)
      refine noSc_append_right ha.1 ih.1 ?_
      intro c hc
      rcases ih.2 with hnil | hhd
      · rw [hnil] at hc
        exact absurd hc (by simp)
      · rw [hhd] at hc
        injection hc with he
        subst he
        exact ⟨by decide, by decide⟩
    · right
      show (a ++ joinStrs t).head? = some '<'
      cases a with
      | nil => exact absurd ha.2 (by simp)
      | cons c a' =>
        have hc : c = '<' := by
          have h2 := ha.2
          simp only [List.head?] at h2
          injection h2 with h3
        subst hc
        rfl

theorem block_wrap_noSc (d e : Char) {a m b : Str} (ha : NoSc a) (hm : NoSc m) (hb : NoSc b)
    (hal : a.getLast? = some d) (hd1 : d ≠ '<') (hd2 : d ≠ 's')
    (hbh : b.head? = some e) (he1 : e ≠ 's') (he2 : e ≠ 'c') :
    NoSc (a ++ m ++ b) := by
  rw [List.append_assoc]
  refine noSc_append_left ha ?_ (last_cond_of_eq d hal hd1 hd2)
  exact noSc_append_right hm hb (head_cond_of_eq e hbh he1 he2)

theorem renderLoop_blocks : ∀ (fuel : Nat) (lines : List Str),
    ∀ b ∈ renderLoop fuel lines, NoSc b ∧ b.head? = some '<'
  | fuel, [] => by
    intro b hb
    rw [renderLoop_nil] at hb
    exact absurd hb (by simp)
  | 0, l :: ls => by
    intro b hb
    rw [show renderLoop 0 (l :: ls) = [] from rfl] at hb
    exact absurd hb (by simp)
  | fuel + 1, l :: ls => by
    intro b hb
    rw [renderLoop] at hb
    by_cases hf : isFence l = true
    · rw [if_pos hf] at hb
      simp only [] at hb
      rcases List.mem_cons.mp hb with rfl | hmem
      · constructor
        · exact block_wrap_noSc '>' '<' (by decide) (esc_noSc _) (by decide)
            (by decide) (by decide) (by decide) (by decide) (by decide) (by decide)
        · rfl
      · exact renderLoop_blocks fuel _ b hmem
    · rw [if_neg hf] at hb
      cases hbm : bulletMatch l with
      | some t =>
        rw [hbm] at hb
        simp only [] at hb
        rcases List.mem_cons.mp hb with rfl | hmem
        · constructor
          · refine block_wrap_noSc '>' '<' (by decide) ?_ (by decide)
              (by decide) (by decide) (by decide) (by decide) (by decide) (by decide)
            refine (joinStrs_noSc _ ?_).1
            intro x hx
            obtain ⟨y, hy, rfl⟩ := List.mem_map.mp hx
            exact ⟨liBullet_noSc y, rfl⟩
          · rfl
        · exact renderLoop_blocks fuel _ b hmem
      | none =>
        rw [hbm] at hb
        simp only [] at hb
        cases hnm : numMatch l with
        | some t =>
          rw [hnm] at hb
          simp only [] at hb
          rcases List.mem_cons.mp hb with rfl | hmem
          · constructor
            · refine block_wrap_noSc '>' '<' (by decide) ?_ (by decide)
                (by decide) (by decide) (by decide) (by decide) (by decide) (by decide)
              refine (joinStrs_noSc _ ?_).1
              intro x hx
              obtain ⟨y, hy, rfl⟩ := List.mem_map.mp hx
              exact ⟨liNum_noSc y, rfl⟩
            · rfl
          · exact renderLoop_blocks fuel _ b hmem
        | none =>
          rw [hnm] at hb
          simp only [] at hb
          by_cases hp : ((l :: ls).takeWhile (fun x => !(jsTrim x).isEmpty)).isEmpty = true
          · rw [if_pos hp] at hb
            exact renderLoop_blocks fuel _ b hb
          · rw [if_neg hp] at hb
            rcases List.mem_cons.mp hb with rfl | hmem
            · constructor
              · exact block_wrap_noSc '>' '<' (by decide) (inline_noSc _) (by decide)
                  (by decide) (by decide) (by decide) (by decide) (by decide) (by decide)
              · rfl
            · exact renderLoop_blocks fuel _ b hmem

theorem renderChatHtmlStr_noSc (md : Str) : NoSc (renderChatHtmlStr md) := by
  unfold renderChatHtmlStr
  simp only []
  exact (joinStrs_noSc _ (fun b hb => renderLoop_blocks _ _ b hb)).1

/-- C7: the renderer never emits an opening script tag. For every input
string the rendered HTML contains no occurrence of the substring
`<script`; in particular the raw tag in running text is escaped into a
paragraph, and the raw tag inside a fenced block is escaped into a code
block, exactly as the escape function rewrites it. -/
theorem render_escapes_script_tags :
    (∀ s : String, hasSub (str "<script") (str (renderChatHtml s)) = false)
      ∧ renderChatHtml "<script>alert(1)</script>"
          = "<p>&lt;script&gt;alert(1)&lt;/script&gt;</p>"
      ∧ renderChatHtml "```\n<script>alert(1)</script>\n```"
          = "<pre><code>&lt;script&gt;alert(1)&lt;/script&gt;</code></pre>" := by
  refine ⟨?_, rfl, rfl⟩
  intro s
  cases hcase : hasSub (str "<script") (str (renderChatHtml s)) with
  | false => rfl
  | true =>
    exfalso
    have hinf : str "<script" <:+: str (renderChatHtml s) :=
      (hasSub_iff _ _).mp hcase
    have hsc : scPat <:+: str (renderChatHtml s) :=
      List.IsInfix.trans (List.IsPrefix.isInfix (by decide)) hinf
    have hns : NoSc (str (renderChatHtml s)) := by
      rw [show str (renderChatHtml s) = renderChatHtmlStr (str s) from rfl]
      exact renderChatHtmlStr_noSc (str s)
    exact hns hsc

end SmartNotes
